import Mathlib

/-!
Verification of the eventsourcing core: the type-preserving JSON codec
(ObjectJSONEncoder / ObjectJSONDecoder), the aggregate/event mutation engine
(Aggregate, Event, VersionError), the bank-account example aggregates, and the
zlib compressor wrapper.  Machine integers, characters and byte strings are
modelled with Nat/Int; timestamps are modelled as abstract Nat instants.
-/

namespace ES

/-! ### Decimal and hexadecimal digit characters -/

def digitChar (d : Nat) : Char := Char.ofNat (48 + d)

def hexChar (d : Nat) : Char := if d < 10 then Char.ofNat (48 + d) else Char.ofNat (87 + d)

def dval (c : Char) : Nat := c.toNat - 48

def hval (c : Char) : Nat := if c.isDigit then c.toNat - 48 else c.toNat - 87

def isHexDig (c : Char) : Bool := c.isDigit || ('a' ≤ c && c ≤ 'f')

theorem digitChar_isDigit {d : Nat} (h : d < 10) : (digitChar d).isDigit = true := by
  interval_cases d <;> decide

theorem dval_digitChar {d : Nat} (h : d < 10) : dval (digitChar d) = d := by
  interval_cases d <;> decide

theorem hexChar_isHexDig {d : Nat} (h : d < 16) : isHexDig (hexChar d) = true := by
  interval_cases d <;> decide

theorem hval_hexChar {d : Nat} (h : d < 16) : hval (hexChar d) = d := by
  interval_cases d <;> decide

/-! ### Zero-padded fixed-width decimal numerals -/

def padNat : Nat → Nat → List Char
  | 0, _ => []
  | w + 1, n => digitChar (n / 10 ^ w) :: padNat w (n % 10 ^ w)

def readFixed : Nat → Nat → List Char → Option (Nat × List Char)
  | 0, acc, cs => some (acc, cs)
  | _ + 1, _, [] => none
  | w + 1, acc, c :: cs => if c.isDigit then readFixed w (acc * 10 + dval c) cs else none

theorem padNat_length (w n : Nat) : (padNat w n).length = w := by
  induction w generalizing n with
  | zero => rfl
  | succ w ih => simp [padNat, ih]

theorem readFixed_pad {w n : Nat} (acc : Nat) (rest : List Char) (h : n < 10 ^ w) :
    readFixed w acc (padNat w n ++ rest) = some (acc * 10 ^ w + n, rest) := by
  induction w generalizing acc n with
  | zero =>
    have : n = 0 := by simpa using h
    simp [padNat, readFixed, this]
  | succ w ih =>
    have hq : n / 10 ^ w < 10 := by
      have hlt : n < 10 ^ w * 10 := by
        have := h; rw [pow_succ] at this; exact this
      exact Nat.div_lt_of_lt_mul (by omega)
    have hr : n % 10 ^ w < 10 ^ w := Nat.mod_lt _ (Nat.pos_pow_of_pos w (by omega))
    simp only [padNat, List.cons_append, readFixed, digitChar_isDigit hq,
      dval_digitChar hq, if_true]
    rw [List.append_eq, ih _ hr]
    have hnm : 10 ^ w * (n / 10 ^ w) + n % 10 ^ w = n := Nat.div_add_mod n (10 ^ w)
    have harith : (acc * 10 + n / 10 ^ w) * 10 ^ w + n % 10 ^ w
        = acc * (10 ^ w * 10) + (10 ^ w * (n / 10 ^ w) + n % 10 ^ w) := by ring
    rw [harith, hnm, ← pow_succ]

/-! ### Unpadded decimal numerals (repr of a natural number) -/

def natRepr (n : Nat) : List Char :=
  if _ : n < 10 then [digitChar n]
  else natRepr (n / 10) ++ [digitChar (n % 10)]
termination_by n
decreasing_by exact Nat.div_lt_self (by omega) (by omega)

def allDigits (ds : List Char) : Bool := ds.all Char.isDigit

def digitsValFrom (acc : Nat) (ds : List Char) : Nat :=
  ds.foldl (fun a c => a * 10 + dval c) acc

theorem digitsValFrom_append (acc : Nat) (ds es : List Char) :
    digitsValFrom acc (ds ++ es) = digitsValFrom (digitsValFrom acc ds) es := by
  simp [digitsValFrom]

theorem digitsValFrom_padNat {w n : Nat} (acc : Nat) (h : n < 10 ^ w) :
    digitsValFrom acc (padNat w n) = acc * 10 ^ w + n := by
  induction w generalizing acc n with
  | zero =>
    have : n = 0 := by simpa using h
    simp [padNat, digitsValFrom, this]
  | succ w ih =>
    have hq : n / 10 ^ w < 10 := by
      have hlt : n < 10 ^ w * 10 := by
        have := h; rw [pow_succ] at this; exact this
      exact Nat.div_lt_of_lt_mul (by omega)
    have hr : n % 10 ^ w < 10 ^ w := Nat.mod_lt _ (Nat.pos_pow_of_pos w (by omega))
    have hstep : digitsValFrom acc (padNat (w + 1) n) =
        digitsValFrom (acc * 10 + n / 10 ^ w) (padNat w (n % 10 ^ w)) := by
      simp [padNat, digitsValFrom, dval_digitChar hq]
    rw [hstep, ih _ hr]
    have hnm : 10 ^ w * (n / 10 ^ w) + n % 10 ^ w = n := Nat.div_add_mod n (10 ^ w)
    have harith : (acc * 10 + n / 10 ^ w) * 10 ^ w + n % 10 ^ w
        = acc * (10 ^ w * 10) + (10 ^ w * (n / 10 ^ w) + n % 10 ^ w) := by ring
    rw [harith, hnm, ← pow_succ]

theorem allDigits_padNat {w n : Nat} (h : n < 10 ^ w) : allDigits (padNat w n) = true := by
  induction w generalizing n with
  | zero => rfl
  | succ w ih =>
    have hq : n / 10 ^ w < 10 := by
      have hlt : n < 10 ^ w * 10 := by
        have := h; rw [pow_succ] at this; exact this
      exact Nat.div_lt_of_lt_mul (by omega)
    have hr : n % 10 ^ w < 10 ^ w := Nat.mod_lt _ (Nat.pos_pow_of_pos w (by omega))
    simp [padNat, allDigits, digitChar_isDigit hq]
    exact fun c hc => by
      have := ih hr
      simp [allDigits, List.all_eq_true] at this
      exact this c hc

theorem digitsValFrom_natRepr (n : Nat) (acc : Nat) :
    digitsValFrom acc (natRepr n) = acc * 10 ^ (natRepr n).length + n := by
  induction n using natRepr.induct with
  | case1 n h =>
    rw [natRepr]
    simp [h, digitsValFrom, dval_digitChar h]
  | case2 n h ih =>
    rw [natRepr]
    simp only [h, dite_false]
    rw [digitsValFrom_append, ih]
    have h10 : n % 10 < 10 := Nat.mod_lt _ (by omega)
    simp [digitsValFrom, dval_digitChar h10, List.length_append]
    have hnm : 10 * (n / 10) + n % 10 = n := Nat.div_add_mod n 10
    ring_nf
    omega

theorem allDigits_natRepr (n : Nat) : allDigits (natRepr n) = true := by
  induction n using natRepr.induct with
  | case1 n h =>
    rw [natRepr]; simp [h, allDigits, digitChar_isDigit h]
  | case2 n h ih =>
    rw [natRepr]
    have h10 : n % 10 < 10 := Nat.mod_lt _ (by omega)
    simp only [h, dite_false]
    simp only [allDigits, List.all_append] at *
    simp [ih, allDigits, digitChar_isDigit h10]

theorem natRepr_length_pos (n : Nat) : 0 < (natRepr n).length := by
  rw [natRepr]
  split <;> simp

/-! ### Fixed-width lowercase hexadecimal numerals (for UUID hex form) -/

def padHex : Nat → Nat → List Char
  | 0, _ => []
  | w + 1, n => hexChar (n / 16 ^ w) :: padHex w (n % 16 ^ w)

def readFixedHex : Nat → Nat → List Char → Option (Nat × List Char)
  | 0, acc, cs => some (acc, cs)
  | _ + 1, _, [] => none
  | w + 1, acc, c :: cs => if isHexDig c then readFixedHex w (acc * 16 + hval c) cs else none

theorem readFixedHex_pad {w n : Nat} (acc : Nat) (rest : List Char) (h : n < 16 ^ w) :
    readFixedHex w acc (padHex w n ++ rest) = some (acc * 16 ^ w + n, rest) := by
  induction w generalizing acc n with
  | zero =>
    have : n = 0 := by simpa using h
    simp [padHex, readFixedHex, this]
  | succ w ih =>
    have hq : n / 16 ^ w < 16 := by
      have hlt : n < 16 ^ w * 16 := by
        have := h; rw [pow_succ] at this; exact this
      exact Nat.div_lt_of_lt_mul (by omega)
    have hr : n % 16 ^ w < 16 ^ w := Nat.mod_lt _ (Nat.pos_pow_of_pos w (by omega))
    simp only [padHex, List.cons_append, readFixedHex, hexChar_isHexDig hq,
      hval_hexChar hq, if_true]
    rw [List.append_eq, ih _ hr]
    have hnm : 16 ^ w * (n / 16 ^ w) + n % 16 ^ w = n := Nat.div_add_mod n (16 ^ w)
    have harith : (acc * 16 + n / 16 ^ w) * 16 ^ w + n % 16 ^ w
        = acc * (16 ^ w * 16) + (16 ^ w * (n / 16 ^ w) + n % 16 ^ w) := by ring
    rw [harith, hnm, ← pow_succ]

/-! ### Greedy decimal reader with a digit count -/

def readDigitsCnt : Nat → Nat → List Char → Nat × Nat × List Char
  | acc, cnt, [] => (acc, cnt, [])
  | acc, cnt, c :: cs =>
    if c.isDigit then readDigitsCnt (acc * 10 + dval c) (cnt + 1) cs else (acc, cnt, c :: cs)

def headNotDigit : List Char → Bool
  | [] => true
  | c :: _ => !c.isDigit

theorem readDigitsCnt_digits {ds : List Char} (hds : allDigits ds = true)
    (acc cnt : Nat) (rest : List Char) :
    readDigitsCnt acc cnt (ds ++ rest) =
      readDigitsCnt (digitsValFrom acc ds) (cnt + ds.length) rest := by
  induction ds generalizing acc cnt with
  | nil => simp [digitsValFrom]
  | cons c cs ih =>
    simp only [allDigits, List.all_cons, Bool.and_eq_true] at hds
    simp only [List.cons_append, readDigitsCnt, hds.1, if_true]
    rw [List.append_eq, ih (by simp [allDigits, hds.2])]
    simp [digitsValFrom, List.length_cons]
    congr 1
    omega

theorem readDigitsCnt_stop {rest : List Char} (h : headNotDigit rest = true) (acc cnt : Nat) :
    readDigitsCnt acc cnt rest = (acc, cnt, rest) := by
  cases rest with
  | nil => rfl
  | cons c cs =>
    simp only [headNotDigit, Bool.not_eq_true'] at h
    simp [readDigitsCnt, h]

theorem natRepr_head_digit (n : Nat) :
    ∃ c tail, natRepr n = c :: tail ∧ c.isDigit = true := by
  have hall := allDigits_natRepr n
  have hpos := natRepr_length_pos n
  cases hrep : natRepr n with
  | nil => rw [hrep] at hpos; simp at hpos
  | cons c tail =>
    rw [hrep] at hall
    simp only [allDigits, List.all_cons, Bool.and_eq_true] at hall
    exact ⟨c, tail, rfl, hall.1⟩

/-! ### Signed decimal numerals -/

def intRepr (i : Int) : List Char :=
  if i < 0 then '-' :: natRepr i.natAbs else natRepr i.natAbs

/-! ### JSON document trees

Modelled from the spec: the canonical JSON text produced by
ObjectJSONEncoder (eventsourcing.utils.transcoding, not shipped with the
sources; only its tests are).  JSON numbers are modelled as integers, which
covers every numeral the codec emits (floats are not part of the supported
value space; exact decimals travel inside a reserved-key wrapper). -/

/-- Modelled from the spec: the JSON document trees underlying the canonical
text form of ObjectJSONEncoder, which is not among the shipped sources. -/
inductive Json where
  | jnull : Json
  | jbool : Bool → Json
  | jnum : Int → Json
  | jstr : String → Json
  | jarr : List Json → Json
  | jobj : List (String × Json) → Json
deriving Repr

/-! Serialization, matching Python json.dumps default separators. -/

def escapeChar (c : Char) : List Char :=
  if c = '"' ∨ c = '\\' then ['\\', c] else [c]

def escapeList : List Char → List Char
  | [] => []
  | c :: cs => escapeChar c ++ escapeList cs

def serStr (s : String) : List Char := '"' :: (escapeList s.data ++ ['"'])

mutual

def serJson : Json → List Char
  | .jnull => ['n', 'u', 'l', 'l']
  | .jbool true => ['t', 'r', 'u', 'e']
  | .jbool false => ['f', 'a', 'l', 's', 'e']
  | .jnum i => intRepr i
  | .jstr s => serStr s
  | .jarr [] => ['[', ']']
  | .jarr (e :: es) => '[' :: (serJson e ++ serElems es ++ [']'])
  | .jobj [] => ['\x7b', '\x7d']
  | .jobj (kv :: kvs) => '\x7b' :: (serMember kv ++ serMembers kvs ++ ['\x7d'])

def serMember : String × Json → List Char
  | (k, v) => serStr k ++ ':' :: ' ' :: serJson v

def serElems : List Json → List Char
  | [] => []
  | e :: es => ',' :: ' ' :: (serJson e ++ serElems es)

def serMembers : List (String × Json) → List Char
  | [] => []
  | kv :: kvs => ',' :: ' ' :: (serMember kv ++ serMembers kvs)

end

/-! Parsing: a single-pass recursive-descent JSON reader over characters,
with explicit fuel for termination. -/

def skipWs : List Char → List Char
  | [] => []
  | c :: cs => if c = ' ' ∨ c = '\n' ∨ c = '\t' ∨ c = '\r' then skipWs cs else c :: cs

def unescape (c : Char) : Option Char :=
  if c = '"' then some '"'
  else if c = '\\' then some '\\'
  else if c = '/' then some '/'
  else if c = 'n' then some '\n'
  else if c = 't' then some '\t'
  else if c = 'r' then some '\r'
  else if c = 'b' then some '\x08'
  else if c = 'f' then some '\x0c'
  else none

def pStrBody : List Char → Option (List Char × List Char)
  | [] => none
  | c :: cs =>
    if c = '"' then some ([], cs)
    else if c = '\\' then
      match cs with
      | [] => none
      | e :: cs' =>
        match unescape e with
        | some u => (pStrBody cs').map (fun p => (u :: p.1, p.2))
        | none => none
    else (pStrBody cs).map (fun p => (c :: p.1, p.2))
termination_by cs => cs.length
decreasing_by all_goals simp_wf <;> omega

def pNum : List Char → Option (Int × List Char)
  | '-' :: cs =>
    match readDigitsCnt 0 0 cs with
    | (v, cnt, rest) => if cnt = 0 then none else some (-(v : Int), rest)
  | cs =>
    match readDigitsCnt 0 0 cs with
    | (v, cnt, rest) => if cnt = 0 then none else some ((v : Int), rest)

mutual

def pVal : Nat → List Char → Option (Json × List Char)
  | 0, _ => none
  | fuel + 1, cs =>
    match skipWs cs with
    | 'n' :: 'u' :: 'l' :: 'l' :: rest => some (.jnull, rest)
    | 't' :: 'r' :: 'u' :: 'e' :: rest => some (.jbool true, rest)
    | 'f' :: 'a' :: 'l' :: 's' :: 'e' :: rest => some (.jbool false, rest)
    | '"' :: rest => (pStrBody rest).map (fun p => (.jstr ⟨p.1⟩, p.2))
    | '[' :: rest =>
      (match skipWs rest with
       | ']' :: rest' => some (.jarr [], rest')
       | rest' =>
         match pVal fuel rest' with
         | none => none
         | some (e, r) =>
           match pElems fuel r with
           | none => none
           | some (es, r') => some (.jarr (e :: es), r'))
    | '\x7b' :: rest =>
      (match skipWs rest with
       | '\x7d' :: rest' => some (.jobj [], rest')
       | rest' =>
         match pMember fuel rest' with
         | none => none
         | some (kv, r) =>
           match pMembers fuel r with
           | none => none
           | some (kvs, r') => some (.jobj (kv :: kvs), r'))
    | other => (pNum other).map (fun p => (.jnum p.1, p.2))

def pMember : Nat → List Char → Option ((String × Json) × List Char)
  | 0, _ => none
  | fuel + 1, cs =>
    match skipWs cs with
    | '"' :: rest =>
      (match pStrBody rest with
       | none => none
       | some (k, r) =>
         match skipWs r with
         | ':' :: r' =>
           (match pVal fuel r' with
            | none => none
            | some (v, r'') => some ((⟨k⟩, v), r''))
         | _ => none)
    | _ => none

def pElems : Nat → List Char → Option (List Json × List Char)
  | 0, _ => none
  | fuel + 1, cs =>
    match skipWs cs with
    | ']' :: rest => some ([], rest)
    | ',' :: rest =>
      (match pVal fuel rest with
       | none => none
       | some (e, r) =>
         match pElems fuel r with
         | none => none
         | some (es, r') => some (e :: es, r'))
    | _ => none

def pMembers : Nat → List Char → Option (List (String × Json) × List Char)
  | 0, _ => none
  | fuel + 1, cs =>
    match skipWs cs with
    | '\x7d' :: rest => some ([], rest)
    | ',' :: rest =>
      (match pMember fuel rest with
       | none => none
       | some (kv, r) =>
         match pMembers fuel r with
         | none => none
         | some (kvs, r') => some (kv :: kvs, r'))
    | _ => none

end

theorem mkData (s : String) : String.mk s.data = s := by cases s; rfl

theorem skipWs_space (cs : List Char) : skipWs (' ' :: cs) = skipWs cs := by simp [skipWs]

def headOkChar (c : Char) : Bool :=
  c.isDigit || c = 'n' || c = 't' || c = 'f' || c = '"' || c = '[' || c = '\x7b' || c = '-'

theorem skipWs_keep {c : Char} (h : headOkChar c = true) (cs : List Char) :
    skipWs (c :: cs) = c :: cs := by
  have hne : ¬(c = ' ' ∨ c = '\n' ∨ c = '\t' ∨ c = '\r') := by
    rintro (rfl | rfl | rfl | rfl) <;> simp [headOkChar] at h
  simp [skipWs, hne]

theorem pStrBody_escape (cs rest : List Char) :
    pStrBody (escapeList cs ++ ('"' :: rest)) = some (cs, rest) := by
  induction cs with
  | nil =>
    rw [escapeList, List.nil_append, pStrBody.eq_def]
    simp
  | cons c cs ih =>
    by_cases hc : c = '"' ∨ c = '\\'
    · have hesc : escapeChar c = ['\\', c] := by simp [escapeChar, hc]
      rcases hc with rfl | rfl <;>
      · rw [escapeList, hesc, List.append_assoc, List.cons_append, List.cons_append,
          pStrBody.eq_def]
        simp [unescape, ih]
    · push_neg at hc
      have hesc : escapeChar c = [c] := by simp [escapeChar, hc.1, hc.2]
      rw [escapeList, hesc, List.append_assoc, List.cons_append, List.nil_append,
        pStrBody.eq_def]
      simp [hc.1, hc.2, ih]

theorem pNum_natRepr (n : Nat) (rest : List Char) (h : headNotDigit rest = true) :
    pNum (natRepr n ++ rest) = some ((n : Int), rest) := by
  obtain ⟨c, tail, hrep, hdig⟩ := natRepr_head_digit n
  have hread : readDigitsCnt 0 0 (natRepr n ++ rest)
      = ((n : Nat), (natRepr n).length, rest) := by
    rw [readDigitsCnt_digits (allDigits_natRepr n), readDigitsCnt_stop h]
    have hv := digitsValFrom_natRepr n 0
    simp at hv
    simp [hv]
  rw [hrep] at hread ⊢
  have hcm : c ≠ '-' := by
    intro h'; rw [h'] at hdig; exact absurd hdig (by decide)
  unfold pNum
  split
  · rename_i cs heq
    exfalso
    rw [List.cons_append] at heq
    injection heq with h1 _
    exact hcm h1
  · rw [List.cons_append] at hread ⊢
    rw [hread]
    simp

theorem pNum_intRepr (i : Int) (rest : List Char) (h : headNotDigit rest = true) :
    pNum (intRepr i ++ rest) = some (i, rest) := by
  by_cases hi : i < 0
  · rw [intRepr, if_pos hi]
    have hread : readDigitsCnt 0 0 (natRepr i.natAbs ++ rest)
        = (i.natAbs, (natRepr i.natAbs).length, rest) := by
      rw [readDigitsCnt_digits (allDigits_natRepr _), readDigitsCnt_stop h]
      have hv := digitsValFrom_natRepr i.natAbs 0
      simp at hv
      simp [hv]
    rw [List.cons_append, pNum, hread]
    have hlen := natRepr_length_pos i.natAbs
    simp [Nat.ne_of_gt hlen, abs_of_neg hi]
  · rw [intRepr, if_neg hi]
    rw [pNum_natRepr _ _ h]
    congr 1
    congr 1
    omega

theorem intRepr_head (i : Int) :
    ∃ c t, intRepr i = c :: t ∧ (c = '-' ∨ c.isDigit = true) := by
  by_cases hi : i < 0
  · exact ⟨'-', natRepr i.natAbs, by rw [intRepr, if_pos hi], Or.inl rfl⟩
  · obtain ⟨c, t, hrep, hdig⟩ := natRepr_head_digit i.natAbs
    exact ⟨c, t, by rw [intRepr, if_neg hi, hrep], Or.inr hdig⟩

theorem pVal_num (fuel : Nat) (i : Int) (rest : List Char) (h : headNotDigit rest = true) :
    pVal (fuel + 1) (intRepr i ++ rest) = some (.jnum i, rest) := by
  obtain ⟨c, t, hrep, hc⟩ := intRepr_head i
  have hok : headOkChar c = true := by
    rcases hc with rfl | hd
    · decide
    · simp [headOkChar, hd]
  have hnum := pNum_intRepr i rest h
  rw [hrep] at hnum ⊢
  rw [List.cons_append] at hnum ⊢
  unfold pVal
  rw [skipWs_keep hok]
  have hlit : ∀ d : Char, d.isDigit = false → d ≠ '-' → c ≠ d := by
    intro d hdig hdm hcd
    rcases hc with rfl | hcdig
    · exact hdm hcd.symm
    · rw [hcd] at hcdig
      rw [hcdig] at hdig
      cases hdig
  split
  · rename_i heq
    injection heq with h1 _
    exact absurd h1 (hlit 'n' (by decide) (by decide))
  · rename_i heq
    injection heq with h1 _
    exact absurd h1 (hlit 't' (by decide) (by decide))
  · rename_i heq
    injection heq with h1 _
    exact absurd h1 (hlit 'f' (by decide) (by decide))
  · rename_i heq
    injection heq with h1 _
    exact absurd h1 (hlit '"' (by decide) (by decide))
  · rename_i heq
    injection heq with h1 _
    exact absurd h1 (hlit '[' (by decide) (by decide))
  · rename_i heq
    injection heq with h1 _
    exact absurd h1 (hlit '\x7b' (by decide) (by decide))
  · rw [hnum]
    rfl

theorem pVal_space (fuel : Nat) (cs : List Char) : pVal fuel (' ' :: cs) = pVal fuel cs := by
  cases fuel with
  | zero => simp [pVal]
  | succ f =>
    unfold pVal
    rw [skipWs_space]

theorem headOk_ne {c d : Char} (h : headOkChar c = true) (hd : headOkChar d = false) :
    c ≠ d := by
  intro heq
  rw [heq] at h
  rw [h] at hd
  cases hd

theorem serJson_head (j : Json) : ∃ c t, serJson j = c :: t ∧ headOkChar c = true := by
  cases j with
  | jnull => exact ⟨'n', ['u', 'l', 'l'], by simp [serJson], by decide⟩
  | jbool b =>
    cases b with
    | true => exact ⟨'t', ['r', 'u', 'e'], by simp [serJson], by decide⟩
    | false => exact ⟨'f', ['a', 'l', 's', 'e'], by simp [serJson], by decide⟩
  | jnum i =>
    obtain ⟨c, t, hrep, hc⟩ := intRepr_head i
    refine ⟨c, t, by simp [serJson, hrep], ?_⟩
    rcases hc with rfl | hd
    · decide
    · simp [headOkChar, hd]
  | jstr s => exact ⟨'"', escapeList s.data ++ ['"'], by simp [serJson, serStr], by decide⟩
  | jarr es =>
    cases es with
    | nil => exact ⟨'[', [']'], by simp [serJson], by decide⟩
    | cons e es =>
      exact ⟨'[', serJson e ++ serElems es ++ [']'], by simp [serJson], by decide⟩
  | jobj kvs =>
    cases kvs with
    | nil => exact ⟨'\x7b', ['\x7d'], by simp [serJson], by decide⟩
    | cons kv kvs =>
      exact ⟨'\x7b', serMember kv ++ serMembers kvs ++ ['\x7d'], by simp [serJson], by decide⟩

/-! Fuel adequate for parsing the serialization of a document. -/

mutual

def jfuel : Json → Nat
  | .jnull => 1
  | .jbool _ => 1
  | .jnum _ => 1
  | .jstr _ => 1
  | .jarr [] => 1
  | .jarr (e :: es) => 1 + jfuel e + jfuelElems es
  | .jobj [] => 1
  | .jobj (kv :: kvs) => 1 + jfuelMember kv + jfuelMembers kvs

def jfuelMember : String × Json → Nat
  | (_, v) => 1 + jfuel v

def jfuelElems : List Json → Nat
  | [] => 1
  | e :: es => 1 + jfuel e + jfuelElems es

def jfuelMembers : List (String × Json) → Nat
  | [] => 1
  | kv :: kvs => 1 + jfuelMember kv + jfuelMembers kvs

end

theorem jfuel_pos (j : Json) : 1 ≤ jfuel j := by
  cases j with
  | jnull => simp [jfuel]
  | jbool b => simp [jfuel]
  | jnum i => simp [jfuel]
  | jstr s => simp [jfuel]
  | jarr es => cases es <;> simp [jfuel] <;> omega
  | jobj kvs => cases kvs <;> simp [jfuel] <;> omega

theorem jfuelElems_pos (es : List Json) : 1 ≤ jfuelElems es := by
  cases es <;> simp [jfuelElems] <;> omega

theorem jfuelMember_pos (kv : String × Json) : 1 ≤ jfuelMember kv := by
  obtain ⟨k, v⟩ := kv
  simp [jfuelMember]

theorem jfuelMembers_pos (kvs : List (String × Json)) : 1 ≤ jfuelMembers kvs := by
  cases kvs <;> simp [jfuelMembers] <;> omega

/-- After a serialized numeral the input may not continue with a digit. -/
def restOk : Json → List Char → Prop
  | .jnum _, rest => headNotDigit rest = true
  | _, _ => True

theorem restOk_of {rest : List Char} (h : headNotDigit rest = true) (j : Json) :
    restOk j rest := by
  cases j <;> first | exact h | trivial

theorem serElems_rest (es : List Json) (r : List Char) :
    headNotDigit (serElems es ++ (']' :: r)) = true := by
  cases es <;> simp [serElems, headNotDigit]

theorem serMembers_rest (kvs : List (String × Json)) (r : List Char) :
    headNotDigit (serMembers kvs ++ ('\x7d' :: r)) = true := by
  cases kvs <;> simp [serMembers, headNotDigit]

theorem pVal_arr_step (fuel : Nat) (cs : List Char) :
    pVal (fuel + 1) ('[' :: cs) =
      (match skipWs cs with
       | ']' :: rest' => some (.jarr [], rest')
       | rest' =>
         match pVal fuel rest' with
         | none => none
         | some (e, r) =>
           match pElems fuel r with
           | none => none
           | some (es, r') => some (.jarr (e :: es), r')) := by
  simp [pVal, skipWs]

theorem pVal_obj_step (fuel : Nat) (cs : List Char) :
    pVal (fuel + 1) ('\x7b' :: cs) =
      (match skipWs cs with
       | '\x7d' :: rest' => some (.jobj [], rest')
       | rest' =>
         match pMember fuel rest' with
         | none => none
         | some (kv, r) =>
           match pMembers fuel r with
           | none => none
           | some (kvs, r') => some (.jobj (kv :: kvs), r')) := by
  simp [pVal, skipWs]

theorem pMember_step (fuel : Nat) (cs : List Char) :
    pMember (fuel + 1) ('"' :: cs) =
      (match pStrBody cs with
       | none => none
       | some (k, r) =>
         match skipWs r with
         | ':' :: r' =>
           (match pVal fuel r' with
            | none => none
            | some (v, r'') => some ((⟨k⟩, v), r''))
         | _ => none) := by
  simp [pMember, skipWs]

theorem pElems_comma_step (fuel : Nat) (cs : List Char) :
    pElems (fuel + 1) (',' :: cs) =
      (match pVal fuel cs with
       | none => none
       | some (e, r) =>
         match pElems fuel r with
         | none => none
         | some (es, r') => some (e :: es, r')) := by
  simp [pElems, skipWs]

theorem pMembers_comma_step (fuel : Nat) (cs : List Char) :
    pMembers (fuel + 1) (',' :: cs) =
      (match pMember fuel cs with
       | none => none
       | some (kv, r) =>
         match pMembers fuel r with
         | none => none
         | some (kvs, r') => some (kv :: kvs, r')) := by
  simp [pMembers, skipWs]

theorem parse_serJson (fuel : Nat) :
    (∀ j rest, restOk j rest → jfuel j ≤ fuel →
       pVal fuel (serJson j ++ rest) = some (j, rest)) ∧
    (∀ es rest, jfuelElems es ≤ fuel →
       pElems fuel (serElems es ++ (']' :: rest)) = some (es, rest)) ∧
    (∀ kv rest, headNotDigit rest = true → jfuelMember kv ≤ fuel →
       pMember fuel (serMember kv ++ rest) = some (kv, rest)) ∧
    (∀ kvs rest, jfuelMembers kvs ≤ fuel →
       pMembers fuel (serMembers kvs ++ ('\x7d' :: rest)) = some (kvs, rest)) := by
  induction fuel with
  | zero =>
    refine ⟨?_, ?_, ?_, ?_⟩
    · intro j rest _ hf
      exact absurd hf (by have := jfuel_pos j; omega)
    · intro es rest hf
      exact absurd hf (by have := jfuelElems_pos es; omega)
    · intro kv rest _ hf
      exact absurd hf (by have := jfuelMember_pos kv; omega)
    · intro kvs rest hf
      exact absurd hf (by have := jfuelMembers_pos kvs; omega)
  | succ fuel ih =>
    obtain ⟨ihV, ihE, ihM, ihR⟩ := ih
    refine ⟨?_, ?_, ?_, ?_⟩
    · intro j rest hok hf
      cases j with
      | jnull => simp [serJson, pVal, skipWs]
      | jbool b => cases b <;> simp [serJson, pVal, skipWs]
      | jnum i =>
        have hstep : serJson (.jnum i) ++ rest = intRepr i ++ rest := by simp [serJson]
        rw [hstep]
        exact pVal_num fuel i rest hok
      | jstr s =>
        have hstep : serJson (.jstr s) ++ rest
            = '"' :: (escapeList s.data ++ ('"' :: rest)) := by
          simp [serJson, serStr]
        rw [hstep]
        simp [pVal, skipWs, pStrBody_escape, mkData]
      | jarr es =>
        cases es with
        | nil => simp [serJson, pVal, skipWs]
        | cons e es =>
          obtain ⟨c, t, hhead, hok'⟩ := serJson_head e
          have hfe : jfuel e ≤ fuel := by
            rw [jfuel] at hf
            have := jfuelElems_pos es
            omega
          have hfes : jfuelElems es ≤ fuel := by
            rw [jfuel] at hf
            have := jfuel_pos e
            omega
          have hV := ihV e (serElems es ++ (']' :: rest))
            (restOk_of (serElems_rest es rest) e) hfe
          have hE := ihE es rest hfes
          have hstep : serJson (.jarr (e :: es)) ++ rest
              = '[' :: (serJson e ++ (serElems es ++ (']' :: rest))) := by
            simp [serJson]
          rw [hstep, pVal_arr_step, hhead, List.cons_append, skipWs_keep hok']
          split
          · rename_i heq
            injection heq with h1 _
            exact absurd h1 (headOk_ne hok' (by decide))
          · rw [show c :: (t ++ (serElems es ++ (']' :: rest)))
                = serJson e ++ (serElems es ++ (']' :: rest)) from by
              rw [hhead, List.cons_append]]
            rw [hV]
            simp [hE]
      | jobj kvs =>
        cases kvs with
        | nil => simp [serJson, pVal, skipWs]
        | cons kv kvs =>
          have hfkv : jfuelMember kv ≤ fuel := by
            rw [jfuel] at hf
            have := jfuelMembers_pos kvs
            omega
          have hfkvs : jfuelMembers kvs ≤ fuel := by
            rw [jfuel] at hf
            have := jfuelMember_pos kv
            omega
          have hM := ihM kv (serMembers kvs ++ ('\x7d' :: rest))
            (serMembers_rest kvs rest) hfkv
          have hR := ihR kvs rest hfkvs
          have hstep : serJson (.jobj (kv :: kvs)) ++ rest
              = '\x7b' :: (serMember kv ++ (serMembers kvs ++ ('\x7d' :: rest))) := by
            simp [serJson]
          obtain ⟨k, v⟩ := kv
          have ht' : serMember (k, v) ++ (serMembers kvs ++ ('\x7d' :: rest))
              = '"' :: (escapeList k.data ++ ['"'] ++ (':' :: ' ' :: serJson v)
                  ++ (serMembers kvs ++ ('\x7d' :: rest))) := by
            simp [serMember, serStr]
          rw [hstep, pVal_obj_step, ht', skipWs_keep (by decide)]
          split
          · rename_i heq
            injection heq with h1 _
            exact absurd h1 (by decide)
          · rw [← ht', hM]
            simp [hR]
    · intro es rest hf
      cases es with
      | nil => simp [serElems, pElems, skipWs]
      | cons e es =>
        have hfe : jfuel e ≤ fuel := by
          rw [jfuelElems] at hf
          have := jfuelElems_pos es
          omega
        have hfes : jfuelElems es ≤ fuel := by
          rw [jfuelElems] at hf
          have := jfuel_pos e
          omega
        have hV := ihV e (serElems es ++ (']' :: rest))
          (restOk_of (serElems_rest es rest) e) hfe
        have hE := ihE es rest hfes
        have hstep : serElems (e :: es) ++ (']' :: rest)
            = ',' :: ' ' :: (serJson e ++ (serElems es ++ (']' :: rest))) := by
          simp [serElems]
        rw [hstep, pElems_comma_step, pVal_space, hV]
        simp [hE]
    · intro kv rest hnd hf
      obtain ⟨k, v⟩ := kv
      have hfv : jfuel v ≤ fuel := by
        rw [jfuelMember] at hf
        omega
      have hV := ihV v rest (restOk_of hnd v) hfv
      have hstep : serMember (k, v) ++ rest
          = '"' :: (escapeList k.data ++ ('"' :: (':' :: ' ' :: (serJson v ++ rest)))) := by
        simp [serMember, serStr]
      rw [hstep, pMember_step, pStrBody_escape]
      simp [skipWs, pVal_space, hV, mkData]
    · intro kvs rest hf
      cases kvs with
      | nil => simp [serMembers, pMembers, skipWs]
      | cons kv kvs =>
        have hfkv : jfuelMember kv ≤ fuel := by
          rw [jfuelMembers] at hf
          have := jfuelMembers_pos kvs
          omega
        have hfkvs : jfuelMembers kvs ≤ fuel := by
          rw [jfuelMembers] at hf
          have := jfuelMember_pos kv
          omega
        have hM := ihM kv (serMembers kvs ++ ('\x7d' :: rest))
          (serMembers_rest kvs rest) hfkv
        have hR := ihR kvs rest hfkvs
        have hstep : serMembers (kv :: kvs) ++ ('\x7d' :: rest)
            = ',' :: ' ' :: (serMember kv ++ (serMembers kvs ++ ('\x7d' :: rest))) := by
          simp [serMembers]
        rw [hstep, pMembers_comma_step]
        have hsp : ∀ fuelx cs, pMember fuelx (' ' :: cs) = pMember fuelx cs := by
          intro fuelx cs
          cases fuelx with
          | zero => simp [pMember]
          | succ f =>
            unfold pMember
            rw [skipWs_space]
        rw [hsp, hM]
        simp [hR]

/-! ### The supported value universe of the codec

Modelled from the spec: the value kinds ObjectJSONEncoder/ObjectJSONDecoder
support (primitives, datetimes with optional UTC offset, dates, times, exact
decimals, 128-bit UUIDs, lists, fixed-arity tuples and named tuples carrying a
type topic, objects with named attributes carrying a type topic, deques), plus
a marker for values of types the codec does not support. -/

structure DateTimeV where
  year : Nat
  month : Nat
  day : Nat
  hour : Nat
  minute : Nat
  second : Nat
  micro : Nat
  offset : Option Int
deriving Repr, DecidableEq

structure DateV where
  year : Nat
  month : Nat
  day : Nat
deriving Repr, DecidableEq

structure TimeV where
  hour : Nat
  minute : Nat
  second : Nat
  micro : Nat
deriving Repr, DecidableEq

structure DecimalV where
  neg : Bool
  coeff : Nat
  scale : Nat
deriving Repr, DecidableEq

/-- Modelled from the spec: the open set of value kinds the transcoder
(eventsourcing.utils.transcoding, not among the shipped sources) supports,
plus vother for values of unsupported types. -/
inductive Value where
  | vnull : Value
  | vbool : Bool → Value
  | vint : Int → Value
  | vstr : String → Value
  | vdatetime : DateTimeV → Value
  | vdate : DateV → Value
  | vtime : TimeV → Value
  | vdecimal : DecimalV → Value
  | vuuid : Nat → Value
  | vlist : List Value → Value
  | vtuple : String → List Value → Value
  | vclass : String → List (String × Value) → Value
  | vdeque : List Value → Value
  | vother : String → Value
deriving Repr

/-! ### ISO-8601 and numeric leaf formats -/

def fmtOffset (off : Int) : List Char :=
  (if off < 0 then '-' else '+') :: (padNat 2 (off.natAbs / 60) ++ padNat 2 (off.natAbs % 60))

def fmtDateTime (d : DateTimeV) : List Char :=
  padNat 4 d.year ++ '-' :: padNat 2 d.month ++ '-' :: padNat 2 d.day ++
    'T' :: padNat 2 d.hour ++ ':' :: padNat 2 d.minute ++ ':' :: padNat 2 d.second ++
    '.' :: padNat 6 d.micro ++
    (match d.offset with
     | none => []
     | some off => fmtOffset off)

def fmtDate (d : DateV) : List Char :=
  padNat 4 d.year ++ '-' :: padNat 2 d.month ++ '-' :: padNat 2 d.day

def fmtTime (t : TimeV) : List Char :=
  padNat 2 t.hour ++ ':' :: padNat 2 t.minute ++ ':' :: padNat 2 t.second ++
    '.' :: padNat 6 t.micro

def fmtDecimal (d : DecimalV) : List Char :=
  (if d.neg then ['-'] else []) ++ natRepr (d.coeff / 10 ^ d.scale) ++
    (if d.scale = 0 then [] else '.' :: padNat d.scale (d.coeff % 10 ^ d.scale))

def expectChar (c : Char) : List Char → Option (List Char)
  | [] => none
  | d :: cs => if d = c then some cs else none

def pstep {A B : Type} : Option (A × List Char) → (A → List Char → Option B) → Option B
  | none, _ => none
  | some (a, cs), f => f a cs

def cstep {B : Type} : Option (List Char) → (List Char → Option B) → Option B
  | none, _ => none
  | some cs, f => f cs

theorem pstep_some {A B : Type} (a : A) (cs : List Char) (f : A → List Char → Option B) :
    pstep (some (a, cs)) f = f a cs := rfl

theorem cstep_some {B : Type} (cs : List Char) (f : List Char → Option B) :
    cstep (some cs) f = f cs := rfl

def parseDateTime (cs : List Char) : Option DateTimeV :=
  pstep (readFixed 4 0 cs) fun y cs =>
  cstep (expectChar '-' cs) fun cs =>
  pstep (readFixed 2 0 cs) fun mo cs =>
  cstep (expectChar '-' cs) fun cs =>
  pstep (readFixed 2 0 cs) fun da cs =>
  cstep (expectChar 'T' cs) fun cs =>
  pstep (readFixed 2 0 cs) fun h cs =>
  cstep (expectChar ':' cs) fun cs =>
  pstep (readFixed 2 0 cs) fun mi cs =>
  cstep (expectChar ':' cs) fun cs =>
  pstep (readFixed 2 0 cs) fun s cs =>
  cstep (expectChar '.' cs) fun cs =>
  pstep (readFixed 6 0 cs) fun us cs =>
  match cs with
  | [] => some ⟨y, mo, da, h, mi, s, us, none⟩
  | sign :: cs =>
    if sign = '+' ∨ sign = '-' then
      pstep (readFixed 2 0 cs) fun oh cs =>
      pstep (readFixed 2 0 cs) fun om cs =>
      match cs with
      | [] =>
        some ⟨y, mo, da, h, mi, s, us,
          some (if sign = '-' then -(((oh * 60 + om : Nat)) : Int) else ((oh * 60 + om : Nat) : Int))⟩
      | _ => none
    else none

def parseDate (cs : List Char) : Option DateV :=
  pstep (readFixed 4 0 cs) fun y cs =>
  cstep (expectChar '-' cs) fun cs =>
  pstep (readFixed 2 0 cs) fun mo cs =>
  cstep (expectChar '-' cs) fun cs =>
  pstep (readFixed 2 0 cs) fun da cs =>
  match cs with
  | [] => some ⟨y, mo, da⟩
  | _ => none

def parseTime (cs : List Char) : Option TimeV :=
  pstep (readFixed 2 0 cs) fun h cs =>
  cstep (expectChar ':' cs) fun cs =>
  pstep (readFixed 2 0 cs) fun mi cs =>
  cstep (expectChar ':' cs) fun cs =>
  pstep (readFixed 2 0 cs) fun s cs =>
  cstep (expectChar '.' cs) fun cs =>
  pstep (readFixed 6 0 cs) fun us cs =>
  match cs with
  | [] => some ⟨h, mi, s, us⟩
  | _ => none

def parseDecimalCore (neg : Bool) (cs : List Char) : Option DecimalV :=
  match readDigitsCnt 0 0 cs with
  | (q, cnt, rest) =>
    if cnt = 0 then none
    else
      match rest with
      | [] => some ⟨neg, q, 0⟩
      | '.' :: frac =>
        if frac ≠ [] ∧ allDigits frac = true then
          some ⟨neg, q * 10 ^ frac.length + digitsValFrom 0 frac, frac.length⟩
        else none
      | _ => none

def parseDecimal (cs : List Char) : Option DecimalV :=
  match cs with
  | '-' :: cs' => parseDecimalCore true cs'
  | cs' => parseDecimalCore false cs'

def parseUuid (cs : List Char) : Option Nat :=
  match readFixedHex 32 0 cs with
  | some (u, []) => some u
  | _ => none

theorem readFixed_pad0 {w n : Nat} (rest : List Char) (h : n < 10 ^ w) :
    readFixed w 0 (padNat w n ++ rest) = some (n, rest) := by
  have := readFixed_pad 0 rest h
  simpa using this

theorem readFixedHex_pad0 {w n : Nat} (rest : List Char) (h : n < 16 ^ w) :
    readFixedHex w 0 (padHex w n ++ rest) = some (n, rest) := by
  have := readFixedHex_pad 0 rest h
  simpa using this

theorem expectChar_self (c : Char) (cs : List Char) : expectChar c (c :: cs) = some cs := by
  simp [expectChar]

def wfDateTime (d : DateTimeV) : Bool :=
  decide (1 ≤ d.year ∧ d.year ≤ 9999 ∧ 1 ≤ d.month ∧ d.month ≤ 12 ∧ 1 ≤ d.day ∧ d.day ≤ 31
      ∧ d.hour ≤ 23 ∧ d.minute ≤ 59 ∧ d.second ≤ 59 ∧ d.micro ≤ 999999) &&
    (match d.offset with
     | none => true
     | some off => decide (-(1439 : Int) ≤ off ∧ off ≤ 1439))

def wfDate (d : DateV) : Bool :=
  decide (1 ≤ d.year ∧ d.year ≤ 9999 ∧ 1 ≤ d.month ∧ d.month ≤ 12 ∧ 1 ≤ d.day ∧ d.day ≤ 31)

def wfTime (t : TimeV) : Bool :=
  decide (t.hour ≤ 23 ∧ t.minute ≤ 59 ∧ t.second ≤ 59 ∧ t.micro ≤ 999999)

theorem parseDateTime_fmt (d : DateTimeV) (h : wfDateTime d = true) :
    parseDateTime (fmtDateTime d) = some d := by
  obtain ⟨y, mo, da, hh, mi, ss, us, off⟩ := d
  rw [wfDateTime, Bool.and_eq_true] at h
  obtain ⟨h1, hoff⟩ := h
  rw [decide_eq_true_eq] at h1
  simp only at h1 hoff
  obtain ⟨hy1, hy2, hm1, hm2, hd1, hd2, hhh, hmi, hss, hus⟩ := h1
  cases off with
  | none =>
    simp only [fmtDateTime, List.append_nil, List.append_assoc, List.cons_append]
    rw [parseDateTime]
    rw [readFixed_pad0 (w := 4) (n := y) _ (by omega)]
    simp only [pstep_some, cstep_some, expectChar_self]
    rw [readFixed_pad0 (w := 2) (n := mo) _ (by omega)]
    simp only [pstep_some, cstep_some, expectChar_self]
    rw [readFixed_pad0 (w := 2) (n := da) _ (by omega)]
    simp only [pstep_some, cstep_some, expectChar_self]
    rw [readFixed_pad0 (w := 2) (n := hh) _ (by omega)]
    simp only [pstep_some, cstep_some, expectChar_self]
    rw [readFixed_pad0 (w := 2) (n := mi) _ (by omega)]
    simp only [pstep_some, cstep_some, expectChar_self]
    rw [readFixed_pad0 (w := 2) (n := ss) _ (by omega)]
    simp only [pstep_some, cstep_some, expectChar_self]
    rw [show (padNat 6 us : List Char) = padNat 6 us ++ [] from (List.append_nil _).symm,
      readFixed_pad0 (w := 6) (n := us) _ (by omega)]
    simp [pstep_some]
  | some o =>
    rw [decide_eq_true_eq] at hoff
    simp only [fmtDateTime, fmtOffset, List.append_assoc, List.cons_append]
    rw [parseDateTime]
    rw [readFixed_pad0 (w := 4) (n := y) _ (by omega)]
    simp only [pstep_some, cstep_some, expectChar_self]
    rw [readFixed_pad0 (w := 2) (n := mo) _ (by omega)]
    simp only [pstep_some, cstep_some, expectChar_self]
    rw [readFixed_pad0 (w := 2) (n := da) _ (by omega)]
    simp only [pstep_some, cstep_some, expectChar_self]
    rw [readFixed_pad0 (w := 2) (n := hh) _ (by omega)]
    simp only [pstep_some, cstep_some, expectChar_self]
    rw [readFixed_pad0 (w := 2) (n := mi) _ (by omega)]
    simp only [pstep_some, cstep_some, expectChar_self]
    rw [readFixed_pad0 (w := 2) (n := ss) _ (by omega)]
    simp only [pstep_some, cstep_some, expectChar_self]
    by_cases ho : o < 0
    · rw [if_pos ho]
      rw [readFixed_pad0 (w := 6) (n := us) _ (by omega)]
      simp only [pstep_some]
      split
      · rw [readFixed_pad0 (w := 2) (n := o.natAbs / 60) _ (by omega)]
        simp only [pstep_some]
        rw [show (padNat 2 (o.natAbs % 60) : List Char) = padNat 2 (o.natAbs % 60) ++ []
            from (List.append_nil _).symm]
        rw [readFixed_pad0 (w := 2) (n := o.natAbs % 60) _ (by omega)]
        simp only [pstep_some]
        simp only [Option.some.injEq, DateTimeV.mk.injEq, eq_self_iff_true, true_and, and_true]
        split
        · omega
        · rename_i hcontra
          simp at hcontra
      · rename_i hcontra
        simp at hcontra
    · rw [if_neg ho]
      rw [readFixed_pad0 (w := 6) (n := us) _ (by omega)]
      simp only [pstep_some]
      split
      · rw [readFixed_pad0 (w := 2) (n := o.natAbs / 60) _ (by omega)]
        simp only [pstep_some]
        rw [show (padNat 2 (o.natAbs % 60) : List Char) = padNat 2 (o.natAbs % 60) ++ []
            from (List.append_nil _).symm]
        rw [readFixed_pad0 (w := 2) (n := o.natAbs % 60) _ (by omega)]
        simp only [pstep_some]
        simp only [Option.some.injEq, DateTimeV.mk.injEq, eq_self_iff_true, true_and, and_true]
        split
        · rename_i hcontra
          simp at hcontra
        · omega
      · rename_i hcontra
        simp at hcontra

theorem parseDate_fmt (d : DateV) (h : wfDate d = true) :
    parseDate (fmtDate d) = some d := by
  obtain ⟨y, mo, da⟩ := d
  rw [wfDate, decide_eq_true_eq] at h
  simp only at h
  obtain ⟨hy1, hy2, hm1, hm2, hd1, hd2⟩ := h
  simp only [fmtDate, List.append_assoc, List.cons_append]
  rw [parseDate]
  rw [readFixed_pad0 (w := 4) (n := y) _ (by omega)]
  simp only [pstep_some, cstep_some, expectChar_self]
  rw [readFixed_pad0 (w := 2) (n := mo) _ (by omega)]
  simp only [pstep_some, cstep_some, expectChar_self]
  rw [show (padNat 2 da : List Char) = padNat 2 da ++ [] from (List.append_nil _).symm]
  rw [readFixed_pad0 (w := 2) (n := da) _ (by omega)]
  simp [pstep_some]

theorem parseTime_fmt (t : TimeV) (h : wfTime t = true) :
    parseTime (fmtTime t) = some t := by
  obtain ⟨hh, mi, ss, us⟩ := t
  rw [wfTime, decide_eq_true_eq] at h
  simp only at h
  obtain ⟨hhh, hmi, hss, hus⟩ := h
  simp only [fmtTime, List.append_assoc, List.cons_append]
  rw [parseTime]
  rw [readFixed_pad0 (w := 2) (n := hh) _ (by omega)]
  simp only [pstep_some, cstep_some, expectChar_self]
  rw [readFixed_pad0 (w := 2) (n := mi) _ (by omega)]
  simp only [pstep_some, cstep_some, expectChar_self]
  rw [readFixed_pad0 (w := 2) (n := ss) _ (by omega)]
  simp only [pstep_some, cstep_some, expectChar_self]
  rw [show (padNat 6 us : List Char) = padNat 6 us ++ [] from (List.append_nil _).symm]
  rw [readFixed_pad0 (w := 6) (n := us) _ (by omega)]
  simp [pstep_some]

theorem parseUuid_pad {u : Nat} (h : u < 16 ^ 32) : parseUuid (padHex 32 u) = some u := by
  rw [parseUuid]
  rw [show (padHex 32 u : List Char) = padHex 32 u ++ [] from (List.append_nil _).symm]
  rw [readFixedHex_pad0 _ h]

theorem parseDecimalCore_int (neg : Bool) (coeff : Nat) :
    parseDecimalCore neg (natRepr coeff) = some ⟨neg, coeff, 0⟩ := by
  have hread : readDigitsCnt 0 0 (natRepr coeff)
      = (coeff, (natRepr coeff).length, ([] : List Char)) := by
    rw [show (natRepr coeff : List Char) = natRepr coeff ++ [] from (List.append_nil _).symm]
    rw [readDigitsCnt_digits (allDigits_natRepr _), readDigitsCnt_stop (by rfl)]
    have hv := digitsValFrom_natRepr coeff 0
    simp at hv
    simp [hv]
  have hlen := natRepr_length_pos coeff
  rw [parseDecimalCore, hread]
  simp only []
  rw [if_neg (show ¬ ((natRepr coeff).length = 0) from by omega)]

theorem parseDecimalCore_frac (neg : Bool) (coeff sc : Nat) :
    parseDecimalCore neg (natRepr (coeff / 10 ^ (sc + 1)) ++
      '.' :: padNat (sc + 1) (coeff % 10 ^ (sc + 1))) = some ⟨neg, coeff, sc + 1⟩ := by
  have hr : coeff % 10 ^ (sc + 1) < 10 ^ (sc + 1) :=
    Nat.mod_lt _ (Nat.pos_pow_of_pos (sc + 1) (by omega))
  have hread : readDigitsCnt 0 0 (natRepr (coeff / 10 ^ (sc + 1)) ++
      '.' :: padNat (sc + 1) (coeff % 10 ^ (sc + 1)))
      = (coeff / 10 ^ (sc + 1), (natRepr (coeff / 10 ^ (sc + 1))).length,
          '.' :: padNat (sc + 1) (coeff % 10 ^ (sc + 1))) := by
    rw [readDigitsCnt_digits (allDigits_natRepr _),
      readDigitsCnt_stop (by simp [headNotDigit])]
    have hv := digitsValFrom_natRepr (coeff / 10 ^ (sc + 1)) 0
    simp at hv
    simp [hv]
  have hlen := natRepr_length_pos (coeff / 10 ^ (sc + 1))
  rw [parseDecimalCore, hread]
  simp only []
  rw [if_neg (show ¬ ((natRepr (coeff / 10 ^ (sc + 1))).length = 0) from by omega)]
  have hfrac : padNat (sc + 1) (coeff % 10 ^ (sc + 1)) ≠ [] := by
    intro hcon
    have := padNat_length (sc + 1) (coeff % 10 ^ (sc + 1))
    rw [hcon] at this
    simp at this
  have hall : allDigits (padNat (sc + 1) (coeff % 10 ^ (sc + 1))) = true :=
    allDigits_padNat hr
  simp only [ne_eq, if_pos (And.intro hfrac hall)]
  have hvv := digitsValFrom_padNat (n := coeff % 10 ^ (sc + 1)) 0 hr
  simp only [Nat.zero_mul, Nat.zero_add] at hvv
  simp only [padNat_length, hvv, Option.some.injEq, DecimalV.mk.injEq,
    eq_self_iff_true, true_and, and_true]
  have h1 := Nat.div_add_mod coeff (10 ^ (sc + 1))
  have h2 : 10 ^ (sc + 1) * (coeff / 10 ^ (sc + 1))
      = (coeff / 10 ^ (sc + 1)) * 10 ^ (sc + 1) := Nat.mul_comm _ _
  omega

theorem parseDecimalCore_fmtTail (neg : Bool) (coeff scale : Nat) :
    parseDecimalCore neg (natRepr (coeff / 10 ^ scale) ++
      (if scale = 0 then ([] : List Char) else '.' :: padNat scale (coeff % 10 ^ scale)))
    = some ⟨neg, coeff, scale⟩ := by
  cases scale with
  | zero => simpa using parseDecimalCore_int neg coeff
  | succ sc =>
    simp only [if_neg (Nat.succ_ne_zero sc)]
    exact parseDecimalCore_frac neg coeff sc

theorem parseDecimal_fmt (d : DecimalV) : parseDecimal (fmtDecimal d) = some d := by
  obtain ⟨neg, coeff, scale⟩ := d
  cases neg with
  | true =>
    have hstep : fmtDecimal ⟨true, coeff, scale⟩
        = '-' :: (natRepr (coeff / 10 ^ scale) ++
            (if scale = 0 then ([] : List Char)
             else '.' :: padNat scale (coeff % 10 ^ scale))) := by
      simp [fmtDecimal]
    rw [hstep, parseDecimal]
    exact parseDecimalCore_fmtTail true coeff scale
  | false =>
    obtain ⟨c, tail, hrep, hdig⟩ := natRepr_head_digit (coeff / 10 ^ scale)
    have hcm : c ≠ '-' := by
      intro h'
      rw [h'] at hdig
      exact absurd hdig (by decide)
    have hcore := parseDecimalCore_fmtTail false coeff scale
    set tailF := (if scale = 0 then ([] : List Char)
      else '.' :: padNat scale (coeff % 10 ^ scale)) with htail
    have hstep : fmtDecimal ⟨false, coeff, scale⟩
        = natRepr (coeff / 10 ^ scale) ++ tailF := by
      simp [fmtDecimal, htail]
    rw [hstep, hrep, List.cons_append]
    rw [hrep, List.cons_append] at hcore
    rw [parseDecimal]
    · exact hcore
    · intro cs1 heq
      injection heq with h1 _
      exact hcm h1

/-! ### The object codec

Modelled from the spec: encoding wraps each supported non-primitive value in a
single reserved-key JSON object; decoding recognizes exactly those wrappers and
rebuilds the native value, recursing through containers.  An unsupported value
fails encoding with an EncodeError naming the type. -/

inductive EncodeError where
  | unsupportedType : String → EncodeError
deriving Repr, DecidableEq

inductive DecodeErr where
  | parseError : DecodeErr
  | badDocument : DecodeErr
deriving Repr, DecidableEq

mutual

def encodeAst : Value → Except EncodeError Json
  | .vnull => .ok .jnull
  | .vbool b => .ok (.jbool b)
  | .vint i => .ok (.jnum i)
  | .vstr s => .ok (.jstr s)
  | .vdatetime d => .ok (.jobj [("ISO8601_datetime", .jstr ⟨fmtDateTime d⟩)])
  | .vdate d => .ok (.jobj [("ISO8601_date", .jstr ⟨fmtDate d⟩)])
  | .vtime t => .ok (.jobj [("ISO8601_time", .jstr ⟨fmtTime t⟩)])
  | .vdecimal d => .ok (.jobj [("__decimal__", .jstr ⟨fmtDecimal d⟩)])
  | .vuuid u => .ok (.jobj [("UUID", .jstr ⟨padHex 32 u⟩)])
  | .vlist es =>
    match encodeList es with
    | .error e => .error e
    | .ok js => .ok (.jarr js)
  | .vtuple topic es =>
    match encodeList es with
    | .error e => .error e
    | .ok js => .ok (.jobj [("__tuple__", .jobj [("state", .jarr js), ("topic", .jstr topic)])])
  | .vclass topic fields =>
    match encodeFields fields with
    | .error e => .error e
    | .ok kvs => .ok (.jobj [("__class__", .jobj [("state", .jobj kvs), ("topic", .jstr topic)])])
  | .vdeque es =>
    match encodeList es with
    | .error e => .error e
    | .ok js => .ok (.jobj [("__deque__", .jarr js)])
  | .vother typeName => .error (.unsupportedType typeName)

def encodeList : List Value → Except EncodeError (List Json)
  | [] => .ok []
  | v :: vs =>
    match encodeAst v with
    | .error e => .error e
    | .ok j =>
      match encodeList vs with
      | .error e => .error e
      | .ok js => .ok (j :: js)

def encodeFields : List (String × Value) → Except EncodeError (List (String × Json))
  | [] => .ok []
  | (k, v) :: kvs =>
    match encodeAst v with
    | .error e => .error e
    | .ok j =>
      match encodeFields kvs with
      | .error e => .error e
      | .ok js => .ok ((k, j) :: js)

end

mutual

def decodeAst : Json → Except DecodeErr Value
  | .jnull => .ok .vnull
  | .jbool b => .ok (.vbool b)
  | .jnum i => .ok (.vint i)
  | .jstr s => .ok (.vstr s)
  | .jarr es =>
    match decodeList es with
    | .error e => .error e
    | .ok vs => .ok (.vlist vs)
  | .jobj [("ISO8601_datetime", .jstr s)] =>
    match parseDateTime s.data with
    | some d => .ok (.vdatetime d)
    | none => .error .badDocument
  | .jobj [("ISO8601_date", .jstr s)] =>
    match parseDate s.data with
    | some d => .ok (.vdate d)
    | none => .error .badDocument
  | .jobj [("ISO8601_time", .jstr s)] =>
    match parseTime s.data with
    | some t => .ok (.vtime t)
    | none => .error .badDocument
  | .jobj [("__decimal__", .jstr s)] =>
    match parseDecimal s.data with
    | some d => .ok (.vdecimal d)
    | none => .error .badDocument
  | .jobj [("UUID", .jstr s)] =>
    match parseUuid s.data with
    | some u => .ok (.vuuid u)
    | none => .error .badDocument
  | .jobj [("__tuple__", .jobj [("state", .jarr es), ("topic", .jstr topic)])] =>
    match decodeList es with
    | .error e => .error e
    | .ok vs => .ok (.vtuple topic vs)
  | .jobj [("__class__", .jobj [("state", .jobj kvs), ("topic", .jstr topic)])] =>
    match decodeFields kvs with
    | .error e => .error e
    | .ok fs => .ok (.vclass topic fs)
  | .jobj [("__deque__", .jarr es)] =>
    match decodeList es with
    | .error e => .error e
    | .ok vs => .ok (.vdeque vs)
  | .jobj _ => .error .badDocument

def decodeList : List Json → Except DecodeErr (List Value)
  | [] => .ok []
  | j :: js =>
    match decodeAst j with
    | .error e => .error e
    | .ok v =>
      match decodeList js with
      | .error e => .error e
      | .ok vs => .ok (v :: vs)

def decodeFields : List (String × Json) → Except DecodeErr (List (String × Value))
  | [] => .ok []
  | (k, j) :: kjs =>
    match decodeAst j with
    | .error e => .error e
    | .ok v =>
      match decodeFields kjs with
      | .error e => .error e
      | .ok vs => .ok ((k, v) :: vs)

end

mutual

def wfV : Value → Bool
  | .vnull => true
  | .vbool _ => true
  | .vint _ => true
  | .vstr _ => true
  | .vdatetime d => wfDateTime d
  | .vdate d => wfDate d
  | .vtime t => wfTime t
  | .vdecimal _ => true
  | .vuuid u => decide (u < 16 ^ 32)
  | .vlist es => wfList es
  | .vtuple _ es => wfList es
  | .vclass _ fields => wfFields fields
  | .vdeque es => wfList es
  | .vother _ => false

def wfList : List Value → Bool
  | [] => true
  | v :: vs => wfV v && wfList vs

def wfFields : List (String × Value) → Bool
  | [] => true
  | (_, v) :: kvs => wfV v && wfFields kvs

end

theorem dataMk (cs : List Char) : (String.mk cs).data = cs := rfl

theorem encodeList_ok (es : List Value)
    (helem : ∀ e ∈ es, wfV e = true → ∃ j, encodeAst e = .ok j ∧ decodeAst j = .ok e)
    (hwf : wfList es = true) :
    ∃ js, encodeList es = .ok js ∧ decodeList js = .ok es := by
  induction es with
  | nil => exact ⟨[], by simp [encodeList], by simp [decodeList]⟩
  | cons e es ih =>
    rw [wfList, Bool.and_eq_true] at hwf
    obtain ⟨j, hj1, hj2⟩ := helem e (by simp) hwf.1
    obtain ⟨js, hjs1, hjs2⟩ := ih (fun x hx hw => helem x (by simp [hx]) hw) hwf.2
    exact ⟨j :: js, by simp [encodeList, hj1, hjs1], by simp [decodeList, hj2, hjs2]⟩

theorem encodeFields_ok (kvs : List (String × Value))
    (helem : ∀ kv ∈ kvs, wfV kv.2 = true →
      ∃ j, encodeAst kv.2 = .ok j ∧ decodeAst j = .ok kv.2)
    (hwf : wfFields kvs = true) :
    ∃ js, encodeFields kvs = .ok js ∧ decodeFields js = .ok kvs := by
  induction kvs with
  | nil => exact ⟨[], by simp [encodeFields], by simp [decodeFields]⟩
  | cons kv kvs ih =>
    obtain ⟨k, v⟩ := kv
    rw [wfFields, Bool.and_eq_true] at hwf
    obtain ⟨j, hj1, hj2⟩ := helem (k, v) (by simp) hwf.1
    obtain ⟨js, hjs1, hjs2⟩ := ih (fun x hx hw => helem x (by simp [hx]) hw) hwf.2
    exact ⟨(k, j) :: js, by simp [encodeFields, hj1, hjs1], by simp [decodeFields, hj2, hjs2]⟩

set_option maxHeartbeats 2000000 in
theorem decodeAst_encodeAst_aux :
    ∀ n, ∀ v : Value, sizeOf v ≤ n → wfV v = true →
      ∃ j, encodeAst v = .ok j ∧ decodeAst j = .ok v := by
  intro n
  induction n with
  | zero =>
    intro v hsz _
    exfalso
    cases v <;> simp at hsz
  | succ n ihn =>
    intro v hsz hwf
    cases v with
    | vnull => exact ⟨.jnull, by simp [encodeAst], by simp [decodeAst]⟩
    | vbool b => exact ⟨.jbool b, by simp [encodeAst], by simp [decodeAst]⟩
    | vint i => exact ⟨.jnum i, by simp [encodeAst], by simp [decodeAst]⟩
    | vstr s => exact ⟨.jstr s, by simp [encodeAst], by simp [decodeAst]⟩
    | vdatetime d =>
      have hw : wfDateTime d = true := by simpa [wfV] using hwf
      refine ⟨.jobj [("ISO8601_datetime", .jstr ⟨fmtDateTime d⟩)], by simp [encodeAst], ?_⟩
      simp [decodeAst, dataMk, parseDateTime_fmt d hw]
    | vdate d =>
      have hw : wfDate d = true := by simpa [wfV] using hwf
      refine ⟨.jobj [("ISO8601_date", .jstr ⟨fmtDate d⟩)], by simp [encodeAst], ?_⟩
      simp [decodeAst, dataMk, parseDate_fmt d hw]
    | vtime t =>
      have hw : wfTime t = true := by simpa [wfV] using hwf
      refine ⟨.jobj [("ISO8601_time", .jstr ⟨fmtTime t⟩)], by simp [encodeAst], ?_⟩
      simp [decodeAst, dataMk, parseTime_fmt t hw]
    | vdecimal d =>
      refine ⟨.jobj [("__decimal__", .jstr ⟨fmtDecimal d⟩)], by simp [encodeAst], ?_⟩
      simp [decodeAst, dataMk, parseDecimal_fmt d]
    | vuuid u =>
      have hw : u < 16 ^ 32 := by simpa [wfV] using hwf
      refine ⟨.jobj [("UUID", .jstr ⟨padHex 32 u⟩)], by simp [encodeAst], ?_⟩
      simp [decodeAst, dataMk, parseUuid_pad hw]
    | vlist es =>
      have helem : ∀ e ∈ es, wfV e = true →
          ∃ j, encodeAst e = .ok j ∧ decodeAst j = .ok e := by
        intro e he hwe
        refine ihn e ?_ hwe
        have h1 := List.sizeOf_lt_of_mem he
        have h2 : sizeOf (Value.vlist es) = 1 + sizeOf es := by simp
        omega
      obtain ⟨js, hjs1, hjs2⟩ := encodeList_ok es helem (by simpa [wfV] using hwf)
      exact ⟨.jarr js, by simp [encodeAst, hjs1], by simp [decodeAst, hjs2]⟩
    | vtuple topic es =>
      have helem : ∀ e ∈ es, wfV e = true →
          ∃ j, encodeAst e = .ok j ∧ decodeAst j = .ok e := by
        intro e he hwe
        refine ihn e ?_ hwe
        have h1 := List.sizeOf_lt_of_mem he
        have h2 : sizeOf (Value.vtuple topic es) = 1 + sizeOf topic + sizeOf es := by simp
        omega
      obtain ⟨js, hjs1, hjs2⟩ := encodeList_ok es helem (by simpa [wfV] using hwf)
      refine ⟨.jobj [("__tuple__", .jobj [("state", .jarr js), ("topic", .jstr topic)])],
        by simp [encodeAst, hjs1], ?_⟩
      simp [decodeAst, hjs2]
    | vclass topic fields =>
      have helem : ∀ kv ∈ fields, wfV kv.2 = true →
          ∃ j, encodeAst kv.2 = .ok j ∧ decodeAst j = .ok kv.2 := by
        intro kv hkv hwe
        refine ihn kv.2 ?_ hwe
        have h1 := List.sizeOf_lt_of_mem hkv
        have h2 : sizeOf (Value.vclass topic fields)
            = 1 + sizeOf topic + sizeOf fields := by simp
        obtain ⟨k, w⟩ := kv
        have h3 : sizeOf ((k, w) : String × Value) = 1 + sizeOf k + sizeOf w := by simp
        simp only at h1 h3 ⊢
        omega
      obtain ⟨js, hjs1, hjs2⟩ := encodeFields_ok fields helem (by simpa [wfV] using hwf)
      refine ⟨.jobj [("__class__", .jobj [("state", .jobj js), ("topic", .jstr topic)])],
        by simp [encodeAst, hjs1], ?_⟩
      simp [decodeAst, hjs2]
    | vdeque es =>
      have helem : ∀ e ∈ es, wfV e = true →
          ∃ j, encodeAst e = .ok j ∧ decodeAst j = .ok e := by
        intro e he hwe
        refine ihn e ?_ hwe
        have h1 := List.sizeOf_lt_of_mem he
        have h2 : sizeOf (Value.vdeque es) = 1 + sizeOf es := by simp
        omega
      obtain ⟨js, hjs1, hjs2⟩ := encodeList_ok es helem (by simpa [wfV] using hwf)
      refine ⟨.jobj [("__deque__", .jarr js)], by simp [encodeAst, hjs1], ?_⟩
      simp [decodeAst, hjs2]
    | vother t => simp [wfV] at hwf

theorem decodeAst_encodeAst (v : Value) (h : wfV v = true) :
    ∃ j, encodeAst v = .ok j ∧ decodeAst j = .ok v :=
  decodeAst_encodeAst_aux (sizeOf v) v le_rfl h

/-! ### Fuel adequacy for parsing serialized documents -/

theorem serStr_length (s : String) : (serStr s).length = (escapeList s.data).length + 2 := by
  simp [serStr]

theorem intRepr_length_pos (i : Int) : 0 < (intRepr i).length := by
  rw [intRepr]
  split
  · simp
  · exact natRepr_length_pos _

theorem elems_fuel_bound (es : List Json)
    (h : ∀ e ∈ es, jfuel e ≤ (serJson e).length) :
    jfuelElems es ≤ (serElems es).length + 1 := by
  induction es with
  | nil => simp [jfuelElems, serElems]
  | cons e es ih =>
    have he := h e (by simp)
    have hes := ih (fun x hx => h x (by simp [hx]))
    rw [jfuelElems]
    rw [show serElems (e :: es) = ',' :: ' ' :: (serJson e ++ serElems es) from by
      simp [serElems]]
    simp only [List.length_cons, List.length_append]
    omega

theorem member_fuel_bound (kv : String × Json)
    (h : jfuel kv.2 ≤ (serJson kv.2).length) :
    jfuelMember kv ≤ (serMember kv).length := by
  obtain ⟨k, v⟩ := kv
  rw [jfuelMember]
  rw [show serMember (k, v) = serStr k ++ ':' :: ' ' :: serJson v from by simp [serMember]]
  simp only [List.length_append, List.length_cons, serStr_length] at h ⊢
  omega

theorem members_fuel_bound (kvs : List (String × Json))
    (h : ∀ kv ∈ kvs, jfuel kv.2 ≤ (serJson kv.2).length) :
    jfuelMembers kvs ≤ (serMembers kvs).length + 1 := by
  induction kvs with
  | nil => simp [jfuelMembers, serMembers]
  | cons kv kvs ih =>
    have he := member_fuel_bound kv (h kv (by simp))
    have hes := ih (fun x hx => h x (by simp [hx]))
    rw [jfuelMembers]
    rw [show serMembers (kv :: kvs) = ',' :: ' ' :: (serMember kv ++ serMembers kvs) from by
      simp [serMembers]]
    simp only [List.length_cons, List.length_append]
    omega

theorem jfuel_le_ser : ∀ n, ∀ j : Json, sizeOf j ≤ n → jfuel j ≤ (serJson j).length := by
  intro n
  induction n with
  | zero =>
    intro j hsz
    exfalso
    cases j <;> simp at hsz
  | succ n ihn =>
    intro j hsz
    cases j with
    | jnull => simp [jfuel, serJson]
    | jbool b => cases b <;> simp [jfuel, serJson]
    | jnum i =>
      have := intRepr_length_pos i
      rw [jfuel, show serJson (.jnum i) = intRepr i from by simp [serJson]]
      omega
    | jstr s =>
      rw [jfuel, show serJson (.jstr s) = serStr s from by simp [serJson]]
      rw [serStr_length]
      omega
    | jarr es =>
      cases es with
      | nil => simp [jfuel, serJson]
      | cons e es =>
        have hmem : ∀ x ∈ e :: es, jfuel x ≤ (serJson x).length := by
          intro x hx
          refine ihn x ?_
          have h1 := List.sizeOf_lt_of_mem hx
          have h2 : sizeOf (Json.jarr (e :: es)) = 1 + sizeOf (e :: es) := by simp
          omega
        have he := hmem e (by simp)
        have hes := elems_fuel_bound es (fun x hx => hmem x (by simp [hx]))
        rw [jfuel, show serJson (.jarr (e :: es))
            = '[' :: (serJson e ++ serElems es ++ [']']) from by simp [serJson]]
        simp only [List.length_cons, List.length_append]
        omega
    | jobj kvs =>
      cases kvs with
      | nil => simp [jfuel, serJson]
      | cons kv kvs =>
        have hmem : ∀ x ∈ kv :: kvs, jfuel x.2 ≤ (serJson x.2).length := by
          intro x hx
          refine ihn x.2 ?_
          have h1 := List.sizeOf_lt_of_mem hx
          have h2 : sizeOf (Json.jobj (kv :: kvs)) = 1 + sizeOf (kv :: kvs) := by simp
          obtain ⟨k, w⟩ := x
          have h3 : sizeOf ((k, w) : String × Json) = 1 + sizeOf k + sizeOf w := by simp
          simp only at h1 h3 ⊢
          omega
        have he := member_fuel_bound kv (hmem kv (by simp))
        have hes := members_fuel_bound kvs (fun x hx => hmem x (by simp [hx]))
        rw [jfuel, show serJson (.jobj (kv :: kvs))
            = '\x7b' :: (serMember kv ++ serMembers kvs ++ ['\x7d']) from by simp [serJson]]
        simp only [List.length_cons, List.length_append]
        omega

/-! ### The full text-level codec: encode to canonical JSON text, decode back -/

/-- Modelled from the spec: ObjectJSONEncoder.encode — value to canonical
JSON text (the encoder itself is not among the shipped sources). -/
def encode (v : Value) : Except EncodeError String :=
  match encodeAst v with
  | .error e => .error e
  | .ok j => .ok ⟨serJson j⟩

/-- Modelled from the spec: ObjectJSONDecoder.decode — JSON text back to a
native value; malformed text is a ParseError (the decoder itself is not among
the shipped sources). -/
def decode (s : String) : Except DecodeErr Value :=
  match pVal (s.data.length + 1) s.data with
  | none => .error .parseError
  | some (j, rest) =>
    match skipWs rest with
    | [] => decodeAst j
    | _ => .error .parseError

/-- C1: for every value of a kind the codec supports (primitives, naive and
offset-aware datetimes, dates, times, exact decimals, UUIDs, tuples and named
tuples, objects with named attributes, deques, lists — nested recursively, and
well-formed in the sense of wfV), decoding the encoding returns a value equal
to the original: decode (encode x) = x. -/
theorem C1_codec_roundtrip (v : Value) (h : wfV v = true) :
    ∃ s, encode v = .ok s ∧ decode s = .ok v := by
  obtain ⟨j, he, hd⟩ := decodeAst_encodeAst v h
  refine ⟨⟨serJson j⟩, by simp [encode, he], ?_⟩
  rw [decode]
  have hfuel : jfuel j ≤ (serJson j).length + 1 := by
    have := jfuel_le_ser (sizeOf j) j le_rfl
    omega
  have hp := (parse_serJson ((serJson j).length + 1)).1 j [] (restOk_of (show headNotDigit [] = true from rfl) j) hfuel
  rw [List.append_nil] at hp
  rw [dataMk, hp]
  simpa [skipWs] using hd

def sampleValue : Value :=
  .vtuple "eventsourcing.tests.test_transcoding#MyNamedTuple"
    [.vint 1, .vstr "2",
     .vclass "eventsourcing.tests.test_transcoding#MyObjectClass"
       [("a", .vlist [.vint 3, .vstr "4"]),
        ("b", .vdatetime ⟨2011, 1, 1, 1, 1, 1, 0, some 0⟩),
        ("c", .vdecimal ⟨false, 59123456, 6⟩),
        ("d", .vuuid 0x6ba7b8119dad11d180b400c04fd430c8),
        ("e", .vdeque []),
        ("f", .vdate ⟨2011, 1, 1⟩),
        ("g", .vtime ⟨23, 59, 59, 123456⟩),
        ("h", .vbool true),
        ("i", .vnull)]]

/-- Witness for C1 at a concrete nested value. -/
theorem C1_codec_roundtrip_witness :
    ∃ s, encode sampleValue = .ok s ∧ decode s = .ok sampleValue :=
  C1_codec_roundtrip sampleValue
    (by simp [sampleValue, wfV, wfList, wfFields, wfDateTime, wfDate, wfTime])

/-- C8: encoding a value of an unsupported type fails with EncodeError naming
the type, and decoding syntactically invalid JSON text fails with ParseError. -/
theorem C8_encode_decode_errors :
    (∀ t, encode (.vother t) = .error (.unsupportedType t)) ∧
    decode "\x7b" = .error .parseError := by
  constructor
  · intro t
    simp [encode, encodeAst]
  · rw [decode]
    rw [show ("\x7b" : String).data = ['\x7b'] from rfl]
    rw [show (['\x7b'] : List Char).length + 1 = 1 + 1 from rfl]
    rw [pVal_obj_step]
    simp [skipWs, pMember]

/-- Witness for C8 at a concrete unsupported type name. -/
theorem C8_encode_decode_errors_witness :
    encode (.vother "builtins#object") = .error (.unsupportedType "builtins#object") ∧
    decode "\x7b" = .error .parseError :=
  ⟨C8_encode_decode_errors.1 "builtins#object", C8_encode_decode_errors.2⟩

/-! ### Aggregate/event mutation engine

Modelled from the spec: eventsourcing.domain (Aggregate, Aggregate.Event,
Aggregate.Created, VersionError, the _create/_trigger_event/mutate/
collect_events contract of section 4.1) is not among the shipped sources; only
its tests and subclasses are.  The engine is generic over the subtype-defined
state S and the event-payload type F, with the Created-event construction
`init` and the per-event apply behavior `apply` passed explicitly.  Timestamps
are abstract Nat instants supplied by the caller. -/

inductive VersionError where
  | mk : VersionError
deriving Repr, DecidableEq

structure Event (F : Type) where
  originator_id : Nat
  originator_version : Nat
  timestamp : Nat
  payload : F
deriving Repr, DecidableEq

structure Aggregate (S F : Type) where
  id : Nat
  version : Nat
  created_on : Nat
  modified_on : Nat
  state : S
  pending : List (Event F)
deriving Repr, DecidableEq

/-- Modelled from the spec: the single fold primitive of section 4.1
(eventsourcing.domain is not among the shipped sources).  Requires version 1
when no aggregate is passed and version+1 otherwise, failing with VersionError;
sets version and modified_on, sets created_on only on the first fold, and
invokes the domain-specific apply behavior. -/
def Event.mutate {S F : Type} (init : F → S) (apply : F → S → S) (e : Event F) :
    Option (Aggregate S F) → Except VersionError (Aggregate S F)
  | none =>
    if e.originator_version = 1 then
      .ok ⟨e.originator_id, e.originator_version, e.timestamp, e.timestamp, init e.payload, []⟩
    else .error .mk
  | some a =>
    if e.originator_version = a.version + 1 then
      .ok ⟨a.id, e.originator_version, a.created_on, e.timestamp,
        apply e.payload a.state, a.pending⟩
    else .error .mk

/-- Modelled from the spec: Aggregate._create — build a version-1 Created
event, fold it onto a fresh aggregate, and queue it as pending. -/
def create {S F : Type} (init : F → S) (apply : F → S → S) (id t : Nat) (payload : F) :
    Aggregate S F :=
  let e : Event F := ⟨id, 1, t, payload⟩
  match Event.mutate init apply e none with
  | .ok a => { a with pending := a.pending ++ [e] }
  | .error _ => ⟨id, 1, t, t, init payload, [e]⟩

/-- Modelled from the spec: Aggregate._trigger_event — build an event with
originator_version = version + 1, fold it in, and append it to the pending
queue. -/
def trigger {S F : Type} (init : F → S) (apply : F → S → S) (a : Aggregate S F)
    (payload : F) (t : Nat) : Aggregate S F :=
  let e : Event F := ⟨a.id, a.version + 1, t, payload⟩
  match Event.mutate init apply e (some a) with
  | .ok a' => { a' with pending := a'.pending ++ [e] }
  | .error _ => a

/-- Modelled from the spec: Aggregate.collect_events — return the pending
events in insertion order and empty the queue. -/
def collect_events {S F : Type} (a : Aggregate S F) : List (Event F) × Aggregate S F :=
  (a.pending, { a with pending := [] })

theorem create_eq {S F : Type} (init : F → S) (apply : F → S → S) (id t : Nat) (p : F) :
    create init apply id t p = ⟨id, 1, t, t, init p, [⟨id, 1, t, p⟩]⟩ := by
  simp [create, Event.mutate]

theorem trigger_eq {S F : Type} (init : F → S) (apply : F → S → S) (a : Aggregate S F)
    (p : F) (t : Nat) :
    trigger init apply a p t
      = ⟨a.id, a.version + 1, a.created_on, t, apply p a.state,
          a.pending ++ [⟨a.id, a.version + 1, t, p⟩]⟩ := by
  simp [trigger, Event.mutate]

/-! Construction-time keyword checking, modelled from the spec: building a
creation event with a keyword the event class does not declare fails with a
ConstructionError naming the offending keyword. -/

structure ConstructionError where
  offending : String
deriving Repr, DecidableEq

def findUndeclared (declared : List String) (keys : List String) : Option String :=
  keys.find? (fun k => !declared.contains k)

/-- Modelled from the spec: event construction checks the given keyword
arguments against the declared field names and fails with a ConstructionError
naming the offending keyword. -/
def createChecked {S F A : Type} (init : F → S) (apply : F → S → S)
    (declared : List String) (fields : List (String × A))
    (build : List (String × A) → F) (id t : Nat) :
    Except ConstructionError (Aggregate S F) :=
  match findUndeclared declared (fields.map Prod.fst) with
  | some k => .error ⟨k⟩
  | none => .ok (create init apply id t (build fields))

/-- C2: mutate fails with VersionError exactly when the event version is not
contiguous with the aggregate version (or is not 1 when no aggregate is
passed), regardless of any other aggregate state; with a contiguous version it
does not raise VersionError. -/
theorem C2_mutate_version_check {S F : Type} (init : F → S) (apply : F → S → S)
    (e : Event F) :
    (∀ a : Aggregate S F,
      (e.originator_version ≠ a.version + 1 →
        Event.mutate init apply e (some a) = .error .mk) ∧
      (e.originator_version = a.version + 1 →
        ∃ a', Event.mutate init apply e (some a) = .ok a')) ∧
    ((e.originator_version ≠ 1 → Event.mutate init apply e none = .error .mk) ∧
     (e.originator_version = 1 → ∃ a', Event.mutate init apply e none = .ok a')) := by
  refine ⟨fun a => ⟨fun hne => ?_, fun heq => ?_⟩, ⟨fun hne => ?_, fun heq => ?_⟩⟩
  · simp [Event.mutate, hne]
  · exact ⟨⟨a.id, e.originator_version, a.created_on, e.timestamp,
      apply e.payload a.state, a.pending⟩, by simp [Event.mutate, heq]⟩
  · simp [Event.mutate, hne]
  · exact ⟨⟨e.originator_id, e.originator_version, e.timestamp, e.timestamp,
      init e.payload, []⟩, by simp [Event.mutate, heq]⟩

/-- Witness for C2: a non-contiguous event (version 3 onto version 1) is
rejected with VersionError and a contiguous one (version 2) is accepted. -/
theorem C2_mutate_version_check_witness :
    Event.mutate (fun _ => ()) (fun _ s => s) ⟨0, 3, 5, ()⟩
        (some ⟨0, 1, 0, 0, (), []⟩) = .error .mk ∧
    (∃ a', Event.mutate (fun _ => ()) (fun _ s => s) ⟨0, 2, 5, ()⟩
        (some ⟨0, 1, 0, 0, (), []⟩) = .ok a') ∧
    Event.mutate (fun _ => ()) (fun _ s => s) ⟨0, 3, 5, ()⟩ none = .error .mk :=
  ⟨((C2_mutate_version_check (fun _ => ()) (fun _ s => s) ⟨0, 3, 5, ()⟩).1
      ⟨0, 1, 0, 0, (), []⟩).1 (by decide),
   ((C2_mutate_version_check (fun _ => ()) (fun _ s => s) ⟨0, 2, 5, ()⟩).1
      ⟨0, 1, 0, 0, (), []⟩).2 rfl,
   ((C2_mutate_version_check (fun _ => ()) (fun _ s => s) ⟨0, 3, 5, ()⟩).2).1 (by decide)⟩

def runCommands {S F : Type} (init : F → S) (apply : F → S → S) (id t0 : Nat) (p0 : F)
    (cmds : List (F × Nat)) : Aggregate S F :=
  cmds.foldl (fun a c => trigger init apply a c.1 c.2) (create init apply id t0 p0)

theorem runCommands_inv {S F : Type} (init : F → S) (apply : F → S → S)
    (cmds : List (F × Nat)) :
    ∀ a : Aggregate S F,
      (cmds.foldl (fun a c => trigger init apply a c.1 c.2) a).version
          = a.version + cmds.length ∧
      (cmds.foldl (fun a c => trigger init apply a c.1 c.2) a).created_on = a.created_on ∧
      (cmds.foldl (fun a c => trigger init apply a c.1 c.2) a).modified_on
          = cmds.foldl (fun m c => c.2) a.modified_on := by
  induction cmds with
  | nil => intro a; simp
  | cons c cmds ih =>
    intro a
    simp only [List.foldl_cons, List.length_cons]
    rw [trigger_eq]
    have h := ih ⟨a.id, a.version + 1, a.created_on, c.2, apply c.1 a.state,
      a.pending ++ [⟨a.id, a.version + 1, c.2, c.1⟩]⟩
    simp only at h
    exact ⟨by omega, h.2.1, h.2.2⟩

/-- C3: a creation followed by any number of triggered commands leaves the
aggregate at version n (the number of events), with created_on fixed at the
timestamp of the first event and modified_on equal to the timestamp of the most
recently applied event. -/
theorem C3_command_sequence {S F : Type} (init : F → S) (apply : F → S → S)
    (id t0 : Nat) (p0 : F) (cmds : List (F × Nat)) :
    (runCommands init apply id t0 p0 cmds).version = cmds.length + 1 ∧
    (runCommands init apply id t0 p0 cmds).created_on = t0 ∧
    (runCommands init apply id t0 p0 cmds).modified_on
        = cmds.foldl (fun m c => c.2) t0 := by
  have h := runCommands_inv init apply cmds (create init apply id t0 p0)
  rw [create_eq] at h
  simp only at h
  rw [runCommands, create_eq]
  exact ⟨by omega, h.2.1, h.2.2⟩

/-- C7: constructing a creation event with a keyword argument the event class
does not declare fails with a ConstructionError naming an offending keyword,
and no aggregate is created. -/
theorem C7_construction_error {S F A : Type} (init : F → S) (apply : F → S → S)
    (declared : List String) (fields : List (String × A))
    (build : List (String × A) → F) (id t : Nat)
    (k : String) (a : A) (hk : (k, a) ∈ fields) (hnd : k ∉ declared) :
    ∃ k₀, createChecked init apply declared fields build id t = .error ⟨k₀⟩ ∧
      k₀ ∈ fields.map Prod.fst ∧ k₀ ∉ declared := by
  have hsome : (findUndeclared declared (fields.map Prod.fst)).isSome := by
    rw [findUndeclared, List.find?_isSome]
    refine ⟨k, ?_, ?_⟩
    · exact List.mem_map_of_mem Prod.fst hk
    · simp [hnd]
  obtain ⟨k₀, hk₀⟩ := Option.isSome_iff_exists.mp hsome
  have hmem := List.mem_of_find?_eq_some hk₀
  have hprop := List.find?_some hk₀
  simp at hprop
  exact ⟨k₀, by simp [createChecked, hk₀], hmem, hprop⟩

/-- Witness for C7: creating with the undeclared keyword "name" fails with a
ConstructionError naming "name". -/
theorem C7_construction_error_witness :
    ∃ k₀, createChecked (fun _ => ()) (fun _ s => s) ["id"] [("name", "name")]
        (fun _ => ()) 0 0 = .error ⟨k₀⟩ ∧
      k₀ ∈ [("name", "name")].map Prod.fst ∧ k₀ ∉ ["id"] :=
  C7_construction_error (fun _ => ()) (fun _ s => s) ["id"] [("name", "name")]
    (fun _ => ()) 0 0 "name" "name" (by simp) (by simp)

/-! ### Bank-account example aggregates

Two source variants exist: eventsourcing/examples/bankaccounts/domainmodel.py
(ExBank below: TransactionAppended carries a transaction_id, and
set_overdraft_limit asserts a strictly positive limit) and the BankAccount
defined in eventsourcing/tests/test_aggregate.py (TBank below: no
transaction_id, and set_overdraft_limit asserts a non-negative limit).
Decimal amounts all carry two fractional digits in the examples and are
modelled as exact integer cents; timestamps are caller-supplied instants.
A failing Python assert is modelled as the assertionFailed error. -/

inductive BankError where
  | accountClosed : Nat → BankError
  | insufficientFunds : Nat → BankError
  | assertionFailed : BankError
deriving Repr, DecidableEq

structure BAState where
  full_name : String
  email_address : String
  balance : Int
  overdraft_limit : Int
  is_closed : Bool
deriving Repr, DecidableEq

namespace ExBank

inductive BAEvent where
  | opened : String → String → BAEvent
  | transactionAppended : Int → Option Nat → BAEvent
  | overdraftLimitSet : Int → BAEvent
  | closed : BAEvent
deriving Repr, DecidableEq

def init : BAEvent → BAState
  | .opened fn em => ⟨fn, em, 0, 0, false⟩
  | _ => ⟨"", "", 0, 0, false⟩

def apply : BAEvent → BAState → BAState
  | .opened _ _, s => s
  | .transactionAppended amount _, s =>
    ⟨s.full_name, s.email_address, s.balance + amount, s.overdraft_limit, s.is_closed⟩
  | .overdraftLimitSet l, s =>
    ⟨s.full_name, s.email_address, s.balance, l, s.is_closed⟩
  | .closed, s =>
    ⟨s.full_name, s.email_address, s.balance, s.overdraft_limit, true⟩

abbrev BankAccount := Aggregate BAState BAEvent

def openAccount (full_name email_address : String) (id t : Nat) : BankAccount :=
  create init apply id t (.opened full_name email_address)

def append_transaction (a : BankAccount) (amount : Int) (transaction_id : Option Nat)
    (t : Nat) : Except BankError BankAccount :=
  if a.state.is_closed then .error (.accountClosed a.id)
  else if a.state.balance + amount < -a.state.overdraft_limit then
    .error (.insufficientFunds a.id)
  else .ok (trigger init apply a (.transactionAppended amount transaction_id) t)

def set_overdraft_limit (a : BankAccount) (overdraft_limit : Int) (t : Nat) :
    Except BankError BankAccount :=
  if overdraft_limit > 0 then
    (if a.state.is_closed then .error (.accountClosed a.id)
     else .ok (trigger init apply a (.overdraftLimitSet overdraft_limit) t))
  else .error .assertionFailed

def close (a : BankAccount) (t : Nat) : BankAccount :=
  trigger init apply a .closed t

end ExBank

namespace TBank

inductive BAEvent where
  | opened : String → String → BAEvent
  | transactionAppended : Int → BAEvent
  | overdraftLimitSet : Int → BAEvent
  | closed : BAEvent
deriving Repr, DecidableEq

def init : BAEvent → BAState
  | .opened fn em => ⟨fn, em, 0, 0, false⟩
  | _ => ⟨"", "", 0, 0, false⟩

def apply : BAEvent → BAState → BAState
  | .opened _ _, s => s
  | .transactionAppended amount, s =>
    ⟨s.full_name, s.email_address, s.balance + amount, s.overdraft_limit, s.is_closed⟩
  | .overdraftLimitSet l, s =>
    ⟨s.full_name, s.email_address, s.balance, l, s.is_closed⟩
  | .closed, s =>
    ⟨s.full_name, s.email_address, s.balance, s.overdraft_limit, true⟩

abbrev BankAccount := Aggregate BAState BAEvent

def openAccount (full_name email_address : String) (id t : Nat) : BankAccount :=
  create init apply id t (.opened full_name email_address)

def append_transaction (a : BankAccount) (amount : Int) (t : Nat) :
    Except BankError BankAccount :=
  if a.state.is_closed then .error (.accountClosed a.id)
  else if a.state.balance + amount < -a.state.overdraft_limit then
    .error (.insufficientFunds a.id)
  else .ok (trigger init apply a (.transactionAppended amount) t)

def set_overdraft_limit (a : BankAccount) (overdraft_limit : Int) (t : Nat) :
    Except BankError BankAccount :=
  if overdraft_limit ≥ 0 then
    (if a.state.is_closed then .error (.accountClosed a.id)
     else .ok (trigger init apply a (.overdraftLimitSet overdraft_limit) t))
  else .error .assertionFailed

def close (a : BankAccount) (t : Nat) : BankAccount :=
  trigger init apply a .closed t

end TBank

namespace TBank

def aliceOpened : BankAccount := openAccount "Alice" "alice@example.com" 0 0

def step (r : Except BankError BankAccount)
    (f : BankAccount → Except BankError BankAccount) : Except BankError BankAccount :=
  match r with
  | .error e => .error e
  | .ok a => f a

/-- The end-to-end scenario prefix: open, +10.00, +10.00, −15.00 (cents). -/
def scenario3 : Except BankError BankAccount :=
  step (step (step (.ok aliceOpened)
    (fun a => append_transaction a 1000 1))
    (fun a => append_transaction a 1000 2))
    (fun a => append_transaction a (-1500) 3)

/-- The full scenario: after the prefix (and a failed −15.00 attempt, which
changes nothing), set the overdraft limit to 100.00, debit 15.00, close. -/
def scenarioFinal : Except BankError BankAccount :=
  (step (step scenario3
    (fun a => set_overdraft_limit a 10000 4))
    (fun a => append_transaction a (-1500) 5)).map (fun a => close a 6)

theorem scenario3_eq : scenario3 = .ok ⟨0, 4, 0, 3,
    ⟨"Alice", "alice@example.com", 500, 0, false⟩,
    [⟨0, 1, 0, .opened "Alice" "alice@example.com"⟩,
     ⟨0, 2, 1, .transactionAppended 1000⟩,
     ⟨0, 3, 2, .transactionAppended 1000⟩,
     ⟨0, 4, 3, .transactionAppended (-1500)⟩]⟩ := by
  simp [scenario3, step, aliceOpened, openAccount, create_eq, append_transaction,
    trigger_eq, init, apply]

theorem scenarioFinal_eq : scenarioFinal = .ok ⟨0, 7, 0, 6,
    ⟨"Alice", "alice@example.com", -1000, 10000, true⟩,
    [⟨0, 1, 0, .opened "Alice" "alice@example.com"⟩,
     ⟨0, 2, 1, .transactionAppended 1000⟩,
     ⟨0, 3, 2, .transactionAppended 1000⟩,
     ⟨0, 4, 3, .transactionAppended (-1500)⟩,
     ⟨0, 5, 4, .overdraftLimitSet 10000⟩,
     ⟨0, 6, 5, .transactionAppended (-1500)⟩,
     ⟨0, 7, 6, .closed⟩]⟩ := by
  simp [scenarioFinal, step, scenario3_eq, set_overdraft_limit, append_transaction,
    close, trigger_eq, init, apply, Except.map]

end TBank

/-- C4 counterexample: in the end-to-end bank-account scenario, draining the
pending events yields 7 events, not 6 as claimed. -/
theorem C4_counterexample :
    TBank.scenarioFinal.map (fun a => (collect_events a).1.length) = .ok 7 ∧
    TBank.scenarioFinal.map (fun a => (collect_events a).1.length) ≠ .ok 6 := by
  rw [TBank.scenarioFinal_eq]
  constructor
  · simp [collect_events, Except.map]
  · simp [collect_events, Except.map]

/-- C4 (amended): draining the pending events of the final scenario account
yields exactly 7 events in creation order — open, +10.00, +10.00, −15.00,
set-limit, −15.00, close, excluding the two failed attempts — and a second
drain yields no events. -/
theorem C4_amended_drain :
    ∃ a, TBank.scenarioFinal = .ok a ∧
      (collect_events a).1 =
        [⟨0, 1, 0, .opened "Alice" "alice@example.com"⟩,
         ⟨0, 2, 1, .transactionAppended 1000⟩,
         ⟨0, 3, 2, .transactionAppended 1000⟩,
         ⟨0, 4, 3, .transactionAppended (-1500)⟩,
         ⟨0, 5, 4, .overdraftLimitSet 10000⟩,
         ⟨0, 6, 5, .transactionAppended (-1500)⟩,
         ⟨0, 7, 6, .closed⟩] ∧
      (collect_events (collect_events a).2).1 = [] := by
  refine ⟨_, TBank.scenarioFinal_eq, ?_, ?_⟩ <;> simp [collect_events]

/-- C5: command preconditions are checked before any event is built — a debit
on a closed account fails with the account-closed error and a debit past the
overdraft limit fails with the insufficient-funds error, in both bank-account
variants, leaving the aggregate unchanged (no event constructed or queued);
in the scenario, after the failed −15.00 debit the balance is still 5.00 and
the version still 4. -/
theorem C5_preconditions :
    (∀ (a : TBank.BankAccount) (amount : Int) (t : Nat), a.state.is_closed = true →
      TBank.append_transaction a amount t = .error (.accountClosed a.id)) ∧
    (∀ (a : TBank.BankAccount) (amount : Int) (t : Nat), a.state.is_closed = false →
      a.state.balance + amount < -a.state.overdraft_limit →
      TBank.append_transaction a amount t = .error (.insufficientFunds a.id)) ∧
    (∀ (a : ExBank.BankAccount) (amount : Int) (txid : Option Nat) (t : Nat),
      a.state.is_closed = false →
      a.state.balance + amount < -a.state.overdraft_limit →
      ExBank.append_transaction a amount txid t = .error (.insufficientFunds a.id)) ∧
    TBank.scenario3.map (fun a => (a.state.balance, a.version)) = .ok (500, 4) ∧
    TBank.scenario3.map (fun a => TBank.append_transaction a (-1500) 9)
      = .ok (.error (.insufficientFunds 0)) := by
  refine ⟨?_, ?_, ?_, ?_, ?_⟩
  · intro a amount t h
    simp [TBank.append_transaction, h]
  · intro a amount t h1 h2
    simp [TBank.append_transaction, h1, h2]
  · intro a amount txid t h1 h2
    simp [ExBank.append_transaction, h1, h2]
  · rw [TBank.scenario3_eq]
    simp [Except.map]
  · rw [TBank.scenario3_eq]
    simp [TBank.append_transaction, Except.map]

/-- Witness for C5: a closed account rejects a debit with the account-closed
error; an account with balance 5.00 and zero overdraft limit rejects a −15.00
debit with the insufficient-funds error. -/
theorem C5_preconditions_witness :
    TBank.append_transaction
      ⟨0, 7, 0, 6, ⟨"Alice", "alice@example.com", 0, 0, true⟩, []⟩ (-1500) 9
      = .error (.accountClosed 0) ∧
    TBank.append_transaction
      ⟨0, 4, 0, 3, ⟨"Alice", "alice@example.com", 500, 0, false⟩, []⟩ (-1500) 9
      = .error (.insufficientFunds 0) :=
  ⟨C5_preconditions.1 _ _ _ rfl,
   C5_preconditions.2.1 _ _ _ rfl (by decide)⟩

/-- C9: the two BankAccount variants disagree on a zero overdraft limit — the
examples-package variant rejects set_overdraft_limit(0.00) (its assert demands
a strictly positive limit) without touching the account, while the test-module
variant accepts it and triggers an OverdraftLimitSet event. -/
theorem C9_zero_overdraft_disagreement :
    (∀ (a : ExBank.BankAccount) (t : Nat),
      ExBank.set_overdraft_limit a 0 t = .error .assertionFailed) ∧
    (∀ (a : TBank.BankAccount) (t : Nat), a.state.is_closed = false →
      TBank.set_overdraft_limit a 0 t
        = .ok (trigger TBank.init TBank.apply a (.overdraftLimitSet 0) t) ∧
      (trigger TBank.init TBank.apply a (.overdraftLimitSet 0) t).pending
        = a.pending ++ [⟨a.id, a.version + 1, t, .overdraftLimitSet 0⟩]) := by
  constructor
  · intro a t
    simp [ExBank.set_overdraft_limit]
  · intro a t h
    constructor
    · simp [TBank.set_overdraft_limit, h]
    · rw [trigger_eq]

/-- Witness for C9: on a freshly opened account, the examples variant rejects
a zero limit and the test variant accepts it. -/
theorem C9_zero_overdraft_disagreement_witness :
    ExBank.set_overdraft_limit (ExBank.openAccount "Alice" "alice@example.com" 0 0) 0 1
      = .error .assertionFailed ∧
    TBank.set_overdraft_limit TBank.aliceOpened 0 1
      = .ok (trigger TBank.init TBank.apply TBank.aliceOpened (.overdraftLimitSet 0) 1) :=
  ⟨C9_zero_overdraft_disagreement.1 _ 1,
   (C9_zero_overdraft_disagreement.2 TBank.aliceOpened 1
      (by simp [TBank.aliceOpened, TBank.openAccount, create_eq, TBank.init])).1⟩

/-- C10: close() performs no closed-account precondition check — in both
variants it always succeeds on any account (already-closed ones included),
appends exactly one Closed event to the pending queue, advances the version by
one, and leaves is_closed true. -/
theorem C10_close_unconditional :
    (∀ (a : ExBank.BankAccount) (t : Nat),
      (ExBank.close a t).pending = a.pending ++ [⟨a.id, a.version + 1, t, .closed⟩] ∧
      (ExBank.close a t).version = a.version + 1 ∧
      (ExBank.close a t).state.is_closed = true) ∧
    (∀ (a : TBank.BankAccount) (t : Nat),
      (TBank.close a t).pending = a.pending ++ [⟨a.id, a.version + 1, t, .closed⟩] ∧
      (TBank.close a t).version = a.version + 1 ∧
      (TBank.close a t).state.is_closed = true) := by
  constructor
  · intro a t
    rw [ExBank.close, trigger_eq]
    exact ⟨rfl, rfl, rfl⟩
  · intro a t
    rw [TBank.close, trigger_eq]
    exact ⟨rfl, rfl, rfl⟩

/-! ### Compressor

Modelled from the spec: ZlibCompressor (eventsourcing/compressor.py) delegates
to the external zlib C library, whose deflate algorithm is not part of this
repository.  Following the description in the spec of the compressor as a stateless
deflate-style symmetric byte transform, the model below implements the essence
of a zlib stream: a two-byte header, an LZ77 token stream (literal bytes and
back-references into the already-produced window, the heart of deflate) with
an explicit end-of-stream marker, and an Adler-32 checksum trailer verified on
decompression.  Bytes are modelled as Nat. -/

inductive LzToken where
  | lit : Nat → LzToken
  | copy : Nat → Nat → LzToken
deriving Repr, DecidableEq

def inflateCopy (out : List Nat) (d : Nat) : Nat → List Nat
  | 0 => out
  | l + 1 => inflateCopy (out ++ [out.getD (out.length - d) 0]) d l

def inflateTokens : List LzToken → List Nat → List Nat
  | [], out => out
  | .lit b :: ts, out => inflateTokens ts (out ++ [b])
  | .copy d l :: ts, out => inflateTokens ts (inflateCopy out d l)

def isMatchAt (out rem : List Nat) (d l : Nat) : Bool :=
  decide (1 ≤ d) && decide (l ≤ d) && decide (d ≤ out.length) && decide (l ≤ rem.length) &&
    (List.range l).all (fun i => out.getD (out.length - d + i) 0 == rem.getD i 0)

def matchLen (out rem : List Nat) (d : Nat) : Nat :=
  (List.range (min d (min rem.length 255) + 1)).foldl
    (fun best l => if isMatchAt out rem d l then l else best) 0

def findMatch (out rem : List Nat) : Option (Nat × Nat) :=
  (List.range' 1 (min out.length 255)).foldl
    (fun best d =>
      let l := matchLen out rem d
      match best with
      | some (_, bl) => if l > bl then some (d, l) else best
      | none => if l ≥ 3 then some (d, l) else none)
    none

def compressLoop : List Nat → List Nat → List LzToken
  | _, [] => []
  | out, b :: rem =>
    match findMatch out (b :: rem) with
    | some (d, l) =>
      if hm : isMatchAt out (b :: rem) d l = true ∧ 3 ≤ l then
        .copy d l :: compressLoop (out ++ (b :: rem).take l) ((b :: rem).drop l)
      else
        .lit b :: compressLoop (out ++ [b]) rem
    | none => .lit b :: compressLoop (out ++ [b]) rem
termination_by _ rem => rem.length
decreasing_by
  all_goals simp only [List.length_drop, List.length_cons]
  all_goals omega

def serTokens : List LzToken → List Nat
  | [] => [0]
  | .lit b :: ts => 1 :: b :: serTokens ts
  | .copy d l :: ts => 2 :: d :: l :: serTokens ts

def parseTokens : Nat → List Nat → Option (List LzToken × List Nat)
  | 0, _ => none
  | _ + 1, [] => none
  | _ + 1, 0 :: bs => some ([], bs)
  | fuel + 1, 1 :: b :: bs => (parseTokens fuel bs).map (fun p => (.lit b :: p.1, p.2))
  | fuel + 1, 2 :: d :: l :: bs => (parseTokens fuel bs).map (fun p => (.copy d l :: p.1, p.2))
  | _ + 1, _ => none

def adler32 (data : List Nat) : Nat :=
  let p := data.foldl (fun (ab : Nat × Nat) b =>
    ((ab.1 + b) % 65521, (ab.2 + ab.1 + b) % 65521)) (1, 0)
  p.2 * 65536 + p.1

def enc4BE (n : Nat) : List Nat :=
  [n / 16777216 % 256, n / 65536 % 256, n / 256 % 256, n % 256]

/-- Modelled from the spec: ZlibCompressor.compress — the zlib C library is
external to the repository; this is a deflate-style stream with header, LZ77
tokens, end marker and Adler-32 trailer. -/
def zlibCompress (data : List Nat) : List Nat :=
  120 :: 156 :: (serTokens (compressLoop [] data) ++ enc4BE (adler32 data))

/-- Modelled from the spec: ZlibCompressor.decompress — checks the header,
replays the token stream and verifies the checksum trailer. -/
def zlibDecompress (data : List Nat) : Option (List Nat) :=
  match data with
  | 120 :: 156 :: body =>
    (match parseTokens (body.length + 1) body with
     | some (ts, rest) =>
       (let out := inflateTokens ts []
        if rest = enc4BE (adler32 out) then some out else none)
     | none => none)
  | _ => none

theorem getD_snoc (out : List Nat) (b x : Nat) : (out ++ [b]).getD out.length x = b := by
  induction out with
  | nil => rfl
  | cons c cs ih => simpa using ih

theorem isMatchAt_bounds {out rem : List Nat} {d l : Nat}
    (h : isMatchAt out rem d l = true) :
    1 ≤ d ∧ l ≤ d ∧ d ≤ out.length ∧ l ≤ rem.length ∧
      ∀ i < l, out.getD (out.length - d + i) 0 = rem.getD i 0 := by
  simp only [isMatchAt, Bool.and_eq_true, decide_eq_true_eq, List.all_eq_true,
    List.mem_range, beq_iff_eq] at h
  exact ⟨h.1.1.1.1, h.1.1.1.2, h.1.1.2, h.1.2, h.2⟩

theorem inflateCopy_spec : ∀ (l : Nat) (out : List Nat) (d : Nat),
    1 ≤ d → d ≤ out.length → l ≤ d →
    inflateCopy out d l
      = out ++ (List.range l).map (fun i => out.getD (out.length - d + i) 0) := by
  intro l
  induction l with
  | zero =>
    intro out d _ _ _
    simp [inflateCopy]
  | succ l ih =>
    intro out d hd1 hdo hld
    rw [inflateCopy]
    rw [ih (out ++ [out.getD (out.length - d) 0]) d hd1 (by simp; omega) (by omega)]
    rw [List.range_succ_eq_map]
    rw [List.map_cons, List.map_map]
    have hpt : ∀ i ∈ List.range l,
        ((out ++ [out.getD (out.length - d) 0]).getD
            ((out ++ [out.getD (out.length - d) 0]).length - d + i) 0)
          = out.getD (out.length - d + (i + 1)) 0 := by
      intro i hi
      rw [List.mem_range] at hi
      have hidx : (out ++ [out.getD (out.length - d) 0]).length - d + i
          = out.length - d + (i + 1) := by
        simp only [List.length_append, List.length_cons, List.length_nil]
        omega
      rw [hidx]
      have hlt : out.length - d + (i + 1) < out.length := by omega
      exact List.getD_append _ _ _ _ hlt
    rw [List.map_congr_left hpt]
    have hshape : (fun i => out.getD (out.length - d + (i + 1)) 0)
        = (fun i => out.getD (out.length - d + i) 0) ∘ Nat.succ := by
      funext i
      simp [Function.comp]
    rw [hshape, ← List.map_map]
    simp only [List.append_assoc, List.singleton_append]
    rfl

theorem take_eq_range_map : ∀ (l : Nat) (rem : List Nat), l ≤ rem.length →
    rem.take l = (List.range l).map (fun i => rem.getD i 0) := by
  intro l
  induction l with
  | zero => intro rem _; simp
  | succ l ih =>
    intro rem h
    rw [List.take_succ, List.range_succ, List.map_append, ← ih rem (by omega)]
    have hlt : l < rem.length := by omega
    simp [List.getElem?_eq_getElem hlt, List.getD_eq_getElem]

theorem isMatchAt_copy {out rem : List Nat} {d l : Nat}
    (h : isMatchAt out rem d l = true) :
    inflateCopy out d l = out ++ rem.take l := by
  obtain ⟨hd1, hld, hdo, hlr, hpt⟩ := isMatchAt_bounds h
  rw [inflateCopy_spec l out d hd1 hdo hld, take_eq_range_map l rem hlr]
  congr 1
  apply List.map_congr_left
  intro i hi
  rw [List.mem_range] at hi
  exact hpt i hi

theorem inflate_compressLoop_aux : ∀ (n : Nat) (rem out : List Nat), rem.length ≤ n →
    inflateTokens (compressLoop out rem) out = out ++ rem := by
  intro n
  induction n with
  | zero =>
    intro rem out h
    have : rem = [] := by
      cases rem with
      | nil => rfl
      | cons b bs => simp at h
    subst this
    simp [compressLoop, inflateTokens]
  | succ n ih =>
    intro rem out h
    cases rem with
    | nil => simp [compressLoop, inflateTokens]
    | cons b bs =>
      rw [compressLoop]
      cases hfm : findMatch out (b :: bs) with
      | none =>
        simp only [inflateTokens]
        rw [ih bs (out ++ [b]) (by simp at h ⊢; omega)]
        simp
      | some dl =>
        obtain ⟨d, l⟩ := dl
        simp only []
        by_cases hc : isMatchAt out (b :: bs) d l = true ∧ 3 ≤ l
        · rw [dif_pos hc]
          simp only [inflateTokens]
          rw [isMatchAt_copy hc.1]
          rw [ih ((b :: bs).drop l) (out ++ (b :: bs).take l) ?hbound]
          · rw [List.append_assoc, List.take_append_drop]
          · have hlen : ((b :: bs).drop l).length = (b :: bs).length - l := by simp
            simp only [List.length_cons] at h hlen ⊢
            omega
        · rw [dif_neg hc]
          simp only [inflateTokens]
          rw [ih bs (out ++ [b]) (by simp at h ⊢; omega)]
          simp

theorem serTokens_length (ts : List LzToken) : ts.length + 1 ≤ (serTokens ts).length := by
  induction ts with
  | nil => simp [serTokens]
  | cons t ts ih =>
    cases t <;> simp [serTokens] <;> omega

theorem parseTokens_ser : ∀ (ts : List LzToken) (fuel : Nat) (rest : List Nat),
    ts.length + 1 ≤ fuel →
    parseTokens fuel (serTokens ts ++ rest) = some (ts, rest) := by
  intro ts
  induction ts with
  | nil =>
    intro fuel rest h
    match fuel, h with
    | fuel + 1, _ => simp [serTokens, parseTokens]
  | cons t ts ih =>
    intro fuel rest h
    match fuel, h with
    | fuel + 1, h =>
      cases t with
      | lit b =>
        simp only [serTokens, List.cons_append, parseTokens]
        rw [List.append_eq, ih fuel rest (by simp at h ⊢; omega)]
        rfl
      | copy d l =>
        simp only [serTokens, List.cons_append, parseTokens]
        rw [List.append_eq, ih fuel rest (by simp at h ⊢; omega)]
        rfl

/-- C6: for every byte string, including the empty one, decompressing the
compression returns the original: the deflate-style compressor model round
trips exactly. -/
theorem C6_compress_roundtrip (data : List Nat) :
    zlibDecompress (zlibCompress data) = some data := by
  rw [zlibCompress, zlibDecompress]
  have hlen := serTokens_length (compressLoop [] data)
  rw [parseTokens_ser (compressLoop [] data) _ (enc4BE (adler32 data)) (by
    simp only [List.length_append]
    omega)]
  have hout : inflateTokens (compressLoop [] data) [] = data := by
    have := inflate_compressLoop_aux data.length data [] le_rfl
    simpa using this
  simp [hout]

end ES
